import Mathlib

/-!
Verification development for the svsim simulation driver
(`svsim/src/main/resources/simulation-driver.cpp`).

The driver is a line-oriented command/response engine around a compiled
hardware simulation.  This file gives a shallow embedding of its bit-vector
codec (`sendBits` / `scanHexBits`), its command dispatcher (`processCommand`),
the tick loop, the execution-script recorder, and the log tailer, and proves
properties of those embeddings.

Conventions:
* machine bytes are `Nat` values `< 256`, buffers are little-endian
  `List Nat` of `(bitWidth + 7) / 8` entries, mirroring the `uint8_t *`
  buffers of the source;
* text on the wire is `List Char`;
* fatal protocol errors (`failWithError`) are `Except.error`;
* C `int` quantities are `Int` with the explicit `INT_MIN`/`INT_MAX`
  bounds checked where the source checks them.
-/

/-- Uppercase hexadecimal digit, as printf `%X` renders one nibble
(`48 = '0'`, `55 + 10 = 'A'`). -/
def hexDigitChar (n : Nat) : Char :=
  if n < 10 then Char.ofNat (48 + n) else Char.ofNat (55 + n)

/-- The two characters printf `%02X` emits for one byte value `< 256`. -/
def hexPair (b : Nat) : List Char :=
  [hexDigitChar (b / 16), hexDigitChar (b % 16)]

/-- The hex text the `sendBits` emission loop produces for a little-endian
buffer: bytes from most significant to least, two digits each
(simulation-driver.cpp lines 261-263). -/
def emitBytesHex (bs : List Nat) : List Char :=
  (bs.reverse.map hexPair).flatten

/-- Little-endian base-256 digits of `v`, exactly `k` bytes (the internal
two's-complement buffer layout used throughout the driver). -/
def natToLEBytes : Nat → Nat → List Nat
  | _, 0 => []
  | v, k + 1 => v % 256 :: natToLEBytes (v / 256) k

/-- Numeric value of a little-endian byte buffer. -/
def leBytesToNat : List Nat → Nat
  | [] => 0
  | b :: rest => b + 256 * leBytesToNat rest

/-- `sendBits`'s sign-bit mask table (lines 220-246); the argument of the
switch is `bitCount % 8`, which is always `< 8`, so the final arm is `case 0`. -/
def signBitMask (bitCount : Nat) : Nat :=
  match bitCount % 8 with
  | 1 => 0x01
  | 2 => 0x02
  | 3 => 0x04
  | 4 => 0x08
  | 5 => 0x10
  | 6 => 0x20
  | 7 => 0x40
  | _ => 0x80

/-- `scanHexBits`'s "inapplicable bits" mask table (lines 471-497); the
argument of the switch is `valueBitCount % 8 < 8`, so the final arm is
`case 0`. -/
def highOrderByteMask (valueBitCount : Nat) : Nat :=
  match valueBitCount % 8 with
  | 1 => 0xFE
  | 2 => 0xFC
  | 3 => 0xF8
  | 4 => 0xF0
  | 5 => 0xE0
  | 6 => 0xC0
  | 7 => 0x80
  | _ => 0x00

/-- The in-place two's-complement negation loop of `sendBits`
(lines 250-256): each byte becomes `(~byte & 0xFF) + carry`, the new carry is
the resulting bit 8.  Bytes are `< 256`, so `~byte & 0xFF = 255 - byte`.
Returns the rewritten buffer and the final carry. -/
def negateBytesAux : List Nat → Nat → List Nat × Nat
  | [], carry => ([], carry)
  | b :: rest, carry =>
    ((255 - b + carry) % 256 :: (negateBytesAux rest ((255 - b + carry) / 256)).1,
      (negateBytesAux rest ((255 - b + carry) / 256)).2)

/-- The value text `sendBits` emits (optional sign, then the magnitude hex
digits), lines 210-265.  The caller passes a little-endian buffer of
`(bitCount + 7) / 8` bytes, each `< 256`.  The 8-digit width prefix of the
full `b` message is added by `sendBitsMsg` below. -/
def sendBitsChars (bytes : List Nat) (bitCount : Nat) (isSigned : Bool) :
    Except String (List Char) :=
  if bitCount = 0 then .error ("Cannot send 0-bit value.")
  else if isSigned ∧ bitCount ≤ 1 then .error ("Cannot send 1-bit signed value.")
  else
    let byteCount := (bitCount + 7) / 8
    if isSigned then
      let m := signBitMask bitCount
      let negative := bytes.getD (byteCount - 1) 0 &&& m ≠ 0
      let b1 := if negative then (negateBytesAux bytes 1).1 else bytes
      -- "Strip irrelevant bits": mutableBytes[byteCount - 1] &= signBitMask - 1
      let b2 := b1.set (byteCount - 1) (b1.getD (byteCount - 1) 0 &&& (m - 1))
      .ok ((if negative then ['-'] else []) ++ emitBytesHex b2)
    else
      .ok (emitBytesHex bytes)

/-- `scanHexCharacterReverse` (lines 375-391): classify one character as a hex
digit or fail. -/
def scanHexCharacter (c : Char) : Except String Nat :=
  if '0' ≤ c ∧ c ≤ '9' then .ok (c.toNat - 48)
  else if 'A' ≤ c ∧ c ≤ 'F' then .ok (c.toNat - 65 + 10)
  else if 'a' ≤ c ∧ c ≤ 'f' then .ok (c.toNat - 97 + 10)
  else .error ("Encountered unexpected character when scanning value.")

/-- The negation step inside the scan loop (lines 446-453): the scanned byte
becomes `(~byte & 0xFF) + carry`; a carry outside `{0, 1}` is a (dead) internal
error branch in the source. -/
def applyNegation (isNeg : Bool) (byte carry : Nat) : Except String (Nat × Nat) :=
  if isNeg then
    let x := (255 - byte) + carry
    if 2 ≤ x / 256 then .error ("Unexpected error in carry computation.")
    else .ok (x % 256, x / 256)
  else .ok (byte, carry)

/-- The per-byte scan loop of `scanHexBits` (lines 440-459).  The source scans
hex pairs right-to-left with a reverse cursor; here the *reversed* character
region is consumed front to back, so the head of the list is the last
character of the region.  `fuel` is `valueByteCount - scannedByteCount`.
A byte is two digits, or a single digit when only one character remains.
The loop stops when `fuel` runs out or the region is exhausted; the returned
`List Char` is the still-unconsumed part of the reversed region (its length is
`reverseScanCursor - firstCharacterOfValue + 1` in source terms). -/
def scanLoop (isNeg : Bool) :
    Nat → List Char → Nat → Except String (List Nat × List Char × Nat)
  | 0, rds, carry => .ok ([], rds, carry)
  | _ + 1, [], _ =>
    -- unreachable from `scanHexBits`: the loop is only entered on a nonempty
    -- region (the source would read before the region start here)
    .error ("Encountered unexpected character when scanning value.")
  | fuel + 1, c :: rest, carry =>
    match scanHexCharacter c with
    | .error e => .error e
    | .ok low =>
      match rest with
      | [] =>
        match applyNegation isNeg low carry with
        | .error e => .error e
        | .ok (b, cOut) => .ok ([b], [], cOut)
      | c2 :: rest2 =>
        match scanHexCharacter c2 with
        | .error e => .error e
        | .ok high =>
          match applyNegation isNeg ((high <<< 4) ||| low) carry with
          | .error e => .error e
          | .ok (b, cOut) =>
            if fuel = 0 then .ok ([b], rest2, cOut)
            else if rest2.isEmpty then .ok ([b], [], cOut)
            else
              match scanLoop isNeg fuel rest2 cOut with
              | .error e => .error e
              | .ok (bs, leftover, cFin) => .ok (b :: bs, leftover, cFin)

/-- The body of `scanHexBits` after the sign has been consumed (lines
435-521).  `ds` is the character region holding the magnitude digits.
The "exceeded N bytes" check fires only when at least **two** characters are
left unconsumed (`reverseScanCursor > firstCharacterOfValue`); a single
leftover character is silently ignored by the source. -/
def scanHexBitsCore (ds : List Char) (isNeg : Bool) (bitCount valueBitCount : Nat) :
    Except String (List Nat) :=
  let byteCount := (bitCount + 7) / 8
  let valueByteCount := (valueBitCount + 7) / 8
  match scanLoop isNeg valueByteCount ds.reverse 1 with
  | .error e => .error e
  | .ok (scanned, leftover, carry) =>
    if 2 ≤ leftover.length then .error ("Scanned value exceeded the byte count.")
    else
      let m := highOrderByteMask valueBitCount
      if isNeg then
        if carry ≠ 0 then .error ("Scanned negative value exceeded the byte count.")
        else
          let bytes := scanned ++ List.replicate (byteCount - scanned.length) 0xFF
          if bytes.getD (byteCount - 1) 0 &&& m ≠ m then
            .error ("Scanned negative value exceeded the bit count.")
          else .ok bytes
      else
        let bytes := scanned ++ List.replicate (byteCount - scanned.length) 0
        if bytes.getD (byteCount - 1) 0 &&& m ≠ 0 then
          .error ("Scanned value exceeded the bit count.")
        else .ok bytes

/-- `scanHexBits` (lines 407-522): parse the character region `cs` as a
(possibly negative) hex value of `bitCount` bits, producing the little-endian
two's-complement buffer of `(bitCount + 7) / 8` bytes. -/
def scanHexBits (cs : List Char) (bitCount : Nat) : Except String (List Nat) :=
  match cs with
  | [] => .error ("Scanned value is empty.")
  | c0 :: rest =>
    if bitCount = 0 then .error ("Cannot scan 0-bit-wide value.")
    else if c0 = '-' then
      if rest.isEmpty then .error ("Unexpected end of negative value.")
      else if bitCount ≤ 1 then .error ("Cannot scan 1-bit-wide negative value.")
      else scanHexBitsCore rest true bitCount (bitCount - 1)
    else scanHexBitsCore (c0 :: rest) false bitCount bitCount

/-- The canonical `bitCount`-bit two's-complement buffer of an integer: the
little-endian bytes of `v mod 2 ^ bitCount` (bits above `bitCount` clear).
This is the buffer a well-behaved engine hands to / receives from the
driver for a width-`bitCount` port. -/
def intToBuffer (v : Int) (bitCount : Nat) : List Nat :=
  natToLEBytes (v % (2 ^ bitCount : Int)).toNat ((bitCount + 7) / 8)

/-- The `bitCount`-bit port value a buffer denotes: bits `0 .. bitCount - 1`
read little-endian, two's complement when signed (spec 4.1: internal values
are two's complement of width `W`). -/
def bufferToInt (bytes : List Nat) (bitCount : Nat) (isSigned : Bool) : Int :=
  let n := leBytesToNat bytes % 2 ^ bitCount
  if isSigned ∧ 2 ^ (bitCount - 1) ≤ n then (n : Int) - 2 ^ bitCount else (n : Int)

instance {ε α : Type} [DecidableEq ε] [DecidableEq α] : DecidableEq (Except ε α)
  | .error x, .error y =>
    if h : x = y then .isTrue (by rw [h])
    else .isFalse fun hc => h (Except.error.inj hc)
  | .error _, .ok _ => .isFalse fun hc => Except.noConfusion hc
  | .ok _, .error _ => .isFalse fun hc => Except.noConfusion hc
  | .ok x, .ok y =>
    if h : x = y then .isTrue (by rw [h])
    else .isFalse fun hc => h (Except.ok.inj hc)

/-- The reversed emission of a buffer: low digit before high digit, least
significant byte first.  This is the order in which the reverse cursor of
`scanHexBits` visits the characters produced by `emitBytesHex`. -/
def pairsLE (bs : List Nat) : List Char :=
  (bs.map fun b => [hexDigitChar (b % 16), hexDigitChar (b / 16)]).flatten

/-- A framed message `<code> <body>\n` on the message stream. -/
structure Msg where
  code : Char
  body : List Char
deriving DecidableEq

/-- Calls the driver makes into the simulation engine. -/
inductive Event
  | setPort (id : Int) (bytes : List Nat)
  | getPort (id : Int)
  | runSim (timesteps : Int)
  | traceInit
  | traceEnable
  | traceDisable
deriving DecidableEq

/-- The engine-supplied interfaces (spec 6.2) the dispatcher consumes: port
resolution (`port_setter` / `port_getter` yielding a bit width), the bytes a
getter writes (for GET and, per tick cycle, for the sentinel port), and the
readable tail of the simulation log. -/
structure Env where
  setWidth : Int → Option Int
  getWidth : Int → Option Int
  readBytesG : Int → Nat → Nat
  readTick : Nat → Nat → Nat
  logTail : List Nat

/-- Result of one accepted command: done flag, engine calls made, messages
emitted, and the static `traceInitialized` flag afterwards. -/
structure CmdResult where
  done : Bool
  events : List Event
  msgs : List Msg
  traceInitialized : Bool
deriving DecidableEq

/-- printf `%08X`, as used for the width prefix of `b` messages and the byte
count of `l` messages; exact for values below `2 ^ 32`. -/
def hex8Chars (n : Nat) : List Char :=
  (List.range 8).reverse.map fun i => hexDigitChar (n / 16 ^ i % 16)

/-- `sendBits` as a full message: `b <8-digit width> <value>` (lines 210-265). -/
def sendBitsMsg (bytes : List Nat) (bitCount : Nat) (isSigned : Bool) :
    Except String Msg :=
  match sendBitsChars bytes bitCount isSigned with
  | .error e => .error e
  | .ok cs => .ok ⟨'b', hex8Chars bitCount ++ ' ' :: cs⟩

/-- `sendUintAsBits` (lines 267-269): the 8 little-endian bytes of the value,
sent as a 64-bit unsigned `b` message. -/
def sendUintAsBits (value : Nat) : Except String Msg :=
  sendBitsMsg (natToLEBytes value 8) 64 false

def ackMsg : Msg := ⟨'k', ['a', 'c', 'k']⟩

/-- The bytes printf `%s` writes from a byte buffer: everything before the
first NUL.  `sendLog` prints the log tail with `%s`, so a NUL byte inside the
tail truncates the payload (while the byte-count prefix counts the whole
tail). -/
def cStringBytes (bs : List Nat) : List Nat :=
  bs.takeWhile fun b => b ≠ 0

/-- `sendLog` (lines 273-314): reject tails longer than `UINT32_MAX`, else
emit `l <8-hex byte count> <tail printed as a C string>`. -/
def sendLogMsg (tail : List Nat) : Except String Msg :=
  if 2 ^ 32 - 1 < tail.length then
    .error ("Log is too long to be encoded as a single LOG message.")
  else
    .ok ⟨'l', hex8Chars tail.length ++ ' ' :: (cStringBytes tail).map Char.ofNat⟩

/-- The `getline` buffer of one command line: the content (no interior
newline), the terminating newline, the NUL terminator. -/
def lineBuf (content : List Char) : List Char :=
  content ++ ['\n', '\x00']

def charAt (buf : List Char) (i : Nat) : Char :=
  buf.getD i '\x00'

/-- Scan helper for `findNext`: the fuel only bounds the recursion; it is
chosen large enough (`buf.length + 1 - i`) that the NUL terminator inside the
buffer is always reached first, so the result does not depend on it. -/
def findNextAux (buf : List Char) (character : Char) : Nat → Nat → Nat
  | 0, i => i
  | fuel + 1, i =>
    if charAt buf i = '\x00' ∨ charAt buf i = character then i
    else findNextAux buf character fuel (i + 1)

/-- `findNext` (lines 524-530): index of the first occurrence of `character`
at or after `i`, stopping at the NUL terminator. -/
def findNext (buf : List Char) (i : Nat) (character : Char) : Nat :=
  findNextAux buf character (buf.length + 1 - i) i

def isSpaceChar (c : Char) : Bool :=
  c = ' ' ∨ c = '\t' ∨ c = '\n' ∨ c = '\x0b' ∨ c = '\x0c' ∨ c = '\r'

def skipWsAux (buf : List Char) : Nat → Nat → Nat
  | 0, i => i
  | fuel + 1, i =>
    if isSpaceChar (charAt buf i) then skipWsAux buf fuel (i + 1) else i

/-- The leading-whitespace skip of `strtol`; the NUL terminator (never a
space) always stops the scan before the fuel runs out. -/
def skipWs (buf : List Char) (i : Nat) : Nat :=
  skipWsAux buf (buf.length + 1 - i) i

def isHexDigit (c : Char) : Bool :=
  ('0' ≤ c ∧ c ≤ '9') ∨ ('A' ≤ c ∧ c ≤ 'F') ∨ ('a' ≤ c ∧ c ≤ 'f')

def hexDigitVal (c : Char) : Nat :=
  if '0' ≤ c ∧ c ≤ '9' then c.toNat - 48
  else if 'A' ≤ c ∧ c ≤ 'F' then c.toNat - 65 + 10
  else c.toNat - 97 + 10

def scanHexNatAux (buf : List Char) : Nat → Nat → Nat → Nat × Nat
  | 0, i, acc => (acc, i)
  | fuel + 1, i, acc =>
    if isHexDigit (charAt buf i) then
      scanHexNatAux buf fuel (i + 1) (acc * 16 + hexDigitVal (charAt buf i))
    else (acc, i)

/-- The digit loop of `strtol` base 16; the NUL terminator (not a hex digit)
always stops the scan before the fuel runs out. -/
def scanHexNat (buf : List Char) (i : Nat) (acc : Nat) : Nat × Nat :=
  scanHexNatAux buf (buf.length + 1 - i) i acc

/-- `strtol(cursor, &end, 16)` as used by `scanInt`: skip whitespace, optional
sign, optional `0x`/`0X` prefix, then hex digits.  Returns the value and end
index; end = `i` means no conversion.  (Clamping to `LONG_MIN`/`LONG_MAX` is
not modelled: any input the clamp would alter fails `scanInt`'s
`INT_MIN`/`INT_MAX` range check either way.) -/
def strtol16 (buf : List Char) (i : Nat) : Int × Nat :=
  let j := skipWs buf i
  let neg := charAt buf j = '-'
  let j1 := if charAt buf j = '-' ∨ charAt buf j = '+' then j + 1 else j
  let j2 := if charAt buf j1 = '0'
      ∧ (charAt buf (j1 + 1) = 'x' ∨ charAt buf (j1 + 1) = 'X')
      ∧ isHexDigit (charAt buf (j1 + 2)) then j1 + 2 else j1
  let r := scanHexNat buf j2 0
  if r.2 = j2 ∧ j2 = j1 then (0, i)
  else (if neg then -(r.1 : Int) else (r.1 : Int), r.2)

/-- `scanInt` (lines 362-373): scan a hex integer, fatal if nothing was
scanned or the value does not fit in a C `int`. -/
def scanInt (buf : List Char) (i : Nat) : Except String (Int × Nat) :=
  let r := strtol16 buf i
  if r.2 = i then .error ("Could not scan integer.")
  else if r.1 < -(2 ^ 31 : Int) ∨ (2 ^ 31 : Int) - 1 < r.1 then
    .error ("Scanned out-of-bounds integer.")
  else .ok r

/-- The character region `[i, j)` of the line buffer, as handed to
`scanHexBits`. -/
def regionChars (buf : List Char) (i j : Nat) : List Char :=
  (buf.take j).drop i

/-- `scanInt`'s result is stored in a `uint32_t` and handed to the resolvers
as an `int`: wrap modulo `2 ^ 32`, then reinterpret as a signed 32-bit
value. -/
def portIdInt (v : Int) : Int :=
  let u := v % 2 ^ 32
  if 2 ^ 31 ≤ u then u - 2 ^ 32 else u

/-- The length argument of the sentinel `memcmp` (line 732): the source
passes `sentinelPort.bitWidth` — the *bit* width — as the number of bytes to
compare, although the compared buffers hold only `(bitWidth + 7) / 8`
allocated bytes. -/
def sentinelCompareByteCount (bitWidth : Nat) : Nat :=
  bitWidth

/-- `memcmp(a, b, n) == 0` over byte lists; an index beyond a list reads 0
here (in the source such a read is past the allocation). -/
def memcmpEq (a b : List Nat) (n : Nat) : Bool :=
  (List.range n).all fun i => a.getD i 0 == b.getD i 0

/-- Sentinel configuration of a TICK command: resolved port id and width, and
the decoded expected value. -/
structure SentinelCfg where
  id : Int
  bitWidth : Int
  expected : List Nat
deriving DecidableEq

/-- The bytes the sentinel getter writes in a given cycle (the engine may
change the port between cycles). -/
def sentinelRead (env : Env) (cfg : SentinelCfg) (cycle : Nat) : List Nat :=
  (List.range ((cfg.bitWidth.toNat + 7) / 8)).map fun i => env.readTick cycle i % 256

/-- The TICK driving loop (lines 728-744): `while (cycles++ < maxCycleCount)`
with the sentinel polled before driving each cycle; the trailing `cycles--`
makes the returned count the number of completed cycles. -/
def tickLoopAux (env : Env) (tickingPortID : Int) (inPhase outPhase : List Nat)
    (timestepsPerPhase maxCycleCount : Int) (sentinel : Option SentinelCfg) :
    Nat → Int → List Event × Int
  | 0, cycles => ([], cycles)
  | fuel + 1, cycles =>
    if cycles < maxCycleCount then
      match sentinel with
      | some cfg =>
        if memcmpEq (sentinelRead env cfg cycles.toNat) cfg.expected
            (sentinelCompareByteCount cfg.bitWidth.toNat) then
          ([.getPort cfg.id], cycles)
        else
          let rest := tickLoopAux env tickingPortID inPhase outPhase timestepsPerPhase
            maxCycleCount sentinel fuel (cycles + 1)
          (.getPort cfg.id :: .setPort tickingPortID inPhase ::
            .runSim timestepsPerPhase :: .setPort tickingPortID outPhase ::
            .runSim timestepsPerPhase :: rest.1, rest.2)
      | none =>
        let rest := tickLoopAux env tickingPortID inPhase outPhase timestepsPerPhase
          maxCycleCount sentinel fuel (cycles + 1)
        (.setPort tickingPortID inPhase :: .runSim timestepsPerPhase ::
          .setPort tickingPortID outPhase :: .runSim timestepsPerPhase :: rest.1,
          rest.2)
    else ([], cycles)

/-- The TICK driving loop (lines 728-744): `while (cycles++ < maxCycleCount)`
with the sentinel polled before driving each cycle; the trailing `cycles--`
makes the returned count the number of completed cycles.  The fuel only
bounds the recursion: it starts at `(maxCycleCount - cycles).toNat`, which the
loop condition `cycles < maxCycleCount` can never outrun. -/
def tickLoop (env : Env) (tickingPortID : Int) (inPhase outPhase : List Nat)
    (timestepsPerPhase maxCycleCount : Int) (sentinel : Option SentinelCfg)
    (cycles : Int) : List Event × Int :=
  tickLoopAux env tickingPortID inPhase outPhase timestepsPerPhase maxCycleCount
    sentinel (maxCycleCount - cycles).toNat cycles

/-- The tail of the TICK case after parsing: final newline check, the loop,
and the 64-bit cycle-count response (lines 724-745). -/
def tickFinish (env : Env) (traceInitialized : Bool) (buf : List Char)
    (tid : Int) (inPhase outPhase : List Nat) (ts maxC : Int)
    (sentinel : Option SentinelCfg) (cursor : Nat) : Except String CmdResult :=
  if charAt buf cursor ≠ '\n' then
    .error ("Unexpected data at end of TICK command.")
  else
    let r := tickLoop env tid inPhase outPhase ts maxC sentinel 0
    match sendUintAsBits r.2.toNat with
    | .error e => .error e
    | .ok m => .ok ⟨false, r.1, [m], traceInitialized⟩

/-- The argument-scanning prefix of the TICK case (lines 668-723): ticking
port, in-phase and out-of-phase values, timesteps per phase, max cycle count
and the optional sentinel, with every validation the source performs on the
way.  Returns the loop parameters together with the cursor at which the
final newline check happens. -/
def parseTick (env : Env) (buf : List Char) (lineEnd : Nat) :
    Except String (Int × List Nat × List Nat × Int × Int × Option SentinelCfg × Nat) :=
  match scanInt buf 1 with
  | .error e => .error e
  | .ok (tid, i1) =>
    match env.setWidth (portIdInt tid) with
    | none => .error ("Invalid port ID.")
    | some w =>
      if w ≤ 0 then .error ("Encountered port with invalid bit width.")
      else if charAt buf i1 ≠ ' ' then
        .error ("Expected space after ticking port ID for TICK command.")
      else
        let j1 := findNext buf (i1 + 1) ','
        match scanHexBits (regionChars buf (i1 + 1) j1) w.toNat with
        | .error e => .error e
        | .ok inPhase =>
          if charAt buf j1 ≠ ',' then
            .error ("Expected comma after in-phase value for TICK command.")
          else
            let j2 := findNext buf (j1 + 1) '-'
            match scanHexBits (regionChars buf (j1 + 1) j2) w.toNat with
            | .error e => .error e
            | .ok outPhase =>
              if charAt buf j2 ≠ '-' then
                .error ("Expected dash after out-of-phase value for TICK command.")
              else
                match scanInt buf (j2 + 1) with
                | .error e => .error e
                | .ok (ts, i2) =>
                  if charAt buf i2 ≠ '*' then
                    .error ("Expected asterisk after timesteps-per-phase for TICK command.")
                  else
                    match scanInt buf (i2 + 1) with
                    | .error e => .error e
                    | .ok (maxC, i3) =>
                      if maxC ≤ 0 then
                        .error ("Max cycle count for TICK command should be greater than 0.")
                      else if charAt buf i3 = ' ' then
                        match scanInt buf (i3 + 1) with
                        | .error e => .error e
                        | .ok (sid, i4) =>
                          match env.getWidth (portIdInt sid) with
                          | none => .error ("Invalid port ID.")
                          | some sw =>
                            if sw ≤ 0 then
                              .error ("Encountered port with invalid bit width.")
                            else if charAt buf i4 ≠ '=' then
                              .error ("Expected equals sign after sentinel port ID for TICK command.")
                            else
                              match scanHexBits (regionChars buf (i4 + 1) lineEnd)
                                  sw.toNat with
                              | .error e => .error e
                              | .ok sv =>
                                .ok (portIdInt tid, inPhase, outPhase, ts, maxC,
                                  some ⟨portIdInt sid, sw, sv⟩, lineEnd)
                      else
                        .ok (portIdInt tid, inPhase, outPhase, ts, maxC, none, i3)

/-- `processCommand` (lines 575-787): dispatch one command line (given as its
content, without the trailing newline), call into the engine, and emit
messages.  `traceInitialized` is the static flag of the TRACE case.  A fatal
protocol error is `Except.error`; there the source prints one `e` message and
exits. -/
def processCommand (env : Env) (traceInitialized : Bool) (content : List Char) :
    Except String CmdResult :=
  let buf := lineBuf content
  let lineEnd := content.length
  match charAt buf 0 with
  | 'D' => .ok ⟨true, [], [], traceInitialized⟩
  | 'L' =>
    match sendLogMsg env.logTail with
    | .error e => .error e
    | .ok m => .ok ⟨false, [], [m], traceInitialized⟩
  | 'S' =>
    match scanInt buf 1 with
    | .error e => .error e
    | .ok (id, i) =>
      match env.setWidth (portIdInt id) with
      | none => .error ("Invalid port ID.")
      | some w =>
        if w ≤ 0 then .error ("Encountered port with invalid bit width.")
        else if charAt buf i ≠ ' ' then
          .error ("Expected space after port ID for SET_BITS command.")
        else
          match scanHexBits (regionChars buf (i + 1) lineEnd) w.toNat with
          | .error e => .error e
          | .ok data =>
            .ok ⟨false, [.setPort (portIdInt id) data], [ackMsg], traceInitialized⟩
  | 'G' =>
    if charAt buf 1 ≠ ' ' then .error ("Expected space after GET_BITS command.")
    else
      let su := charAt buf 2
      if su = 's' ∨ su = 'u' then
        if charAt buf 3 ≠ ' ' then
          .error ("Expected space after s or u argument to GET_BITS command.")
        else
          match scanInt buf 4 with
          | .error e => .error e
          | .ok (id, i) =>
            if charAt buf i ≠ '\n' then
              .error ("Unexpected data at end of GET_BITS command.")
            else
              match env.getWidth (portIdInt id) with
              | none => .error ("Invalid port ID.")
              | some w =>
                if w ≤ 0 then .error ("Encountered port with invalid bit width.")
                else
                  let bytes := (List.range ((w.toNat + 7) / 8)).map
                    fun k => env.readBytesG (portIdInt id) k % 256
                  match sendBitsMsg bytes w.toNat (su == 's') with
                  | .error e => .error e
                  | .ok m =>
                    .ok ⟨false, [.getPort (portIdInt id)], [m], traceInitialized⟩
      else .error ("Expected s or u argument to GET_BITS command.")
  | 'R' =>
    match scanInt buf 1 with
    | .error e => .error e
    | .ok (t, i) =>
      if charAt buf i ≠ '\n' then .error ("Unexpected data at end of RUN command.")
      else .ok ⟨false, [.runSim t], [ackMsg], traceInitialized⟩
  | 'T' =>
    match parseTick env buf lineEnd with
    | .error e => .error e
    | .ok (tid, inPhase, outPhase, ts, maxC, sentinel, cursor) =>
      tickFinish env traceInitialized buf tid inPhase outPhase ts maxC sentinel cursor
  | 'W' =>
    if charAt buf 1 ≠ ' ' then
      .error ("Expected space after ticking port ID for TICK command.")
    else
      let argument := charAt buf 2
      if charAt buf 3 ≠ '\n' then .error ("Unexpected data at end of TRACE command.")
      else
        match argument with
        | '1' =>
          if traceInitialized then .ok ⟨false, [.traceEnable], [ackMsg], true⟩
          else .ok ⟨false, [.traceInit, .traceEnable], [ackMsg], true⟩
        | '0' => .ok ⟨false, [.traceDisable], [ackMsg], traceInitialized⟩
        | _ => .ok ⟨false, [], [ackMsg], traceInitialized⟩
  | _ => .error ("Unknown opcode.")

/-- An environment with no resolvable ports and an empty log. -/
def env0 : Env := ⟨fun _ => none, fun _ => none, fun _ _ => 0, fun _ _ => 0, []⟩

/-- An environment whose only port is a settable 8-bit port with id 0. -/
def envT : Env := ⟨fun i => if i = 0 then some 8 else none, fun _ => none,
  fun _ _ => 0, fun _ _ => 0, []⟩

/-- One line of the execution-script file. -/
inductive ScriptLine
  | cmd (n : Int) (s : List Char)
  | note (limit : Int)
  | syntheticDone (n : Int)
deriving DecidableEq

/-- The recorder block of `readCommand` (lines 325-340) for one incoming
command: record the command when the counter is within the limit
(incrementing the counter), then — whenever the counter sits exactly at
`limit + 1` — write the note line followed by a synthetic `D` command. -/
def recordStep (limit count : Int) (s : List Char) : Int × List ScriptLine :=
  let r1 : Int × List ScriptLine :=
    if limit = -1 ∨ count ≤ limit then (count + 1, [.cmd count s]) else (count, [])
  let r2 : List ScriptLine :=
    if r1.1 = limit + 1 then [.note limit, .syntheticDone r1.1] else []
  (r1.1, r1.2 ++ r2)

def recordRunAux (limit count : Int) : List (List Char) → List ScriptLine
  | [] => []
  | s :: rest => (recordStep limit count s).2
      ++ recordRunAux limit (recordStep limit count s).1 rest

/-- The execution-script lines produced for a run of commands, starting from
command counter 1 (line 155). -/
def recordRun (limit : Int) (cmds : List (List Char)) : List ScriptLine :=
  recordRunAux limit 1 cmds

/-- State of the log tailer: the byte stream the engine has written so far,
and the read cursor of `sendLog`'s private `FILE *`. -/
structure LogState where
  file : List Nat
  cursor : Nat
deriving DecidableEq

inductive LogEvent
  | append (bs : List Nat)
  | tail
deriving DecidableEq

/-- One step of the log system: the engine appends bytes, or a LOG command is
served (`sendLog`, lines 273-314): the readable range runs from the cursor to
the end of file, `fread` advances the cursor over the whole range, and the
emitted payload is the range printed with `%s`. -/
def logStep (st : LogState) (ev : LogEvent) :
    Except String (LogState × List (List Nat)) :=
  match ev with
  | .append bs => .ok (⟨st.file ++ bs, st.cursor⟩, [])
  | .tail =>
    let readable := st.file.drop st.cursor
    if 2 ^ 32 - 1 < readable.length then
      .error ("Log is too long to be encoded as a single LOG message.")
    else .ok (⟨st.file, st.file.length⟩, [cStringBytes readable])

def logRun (st : LogState) : List LogEvent → Except String (LogState × List (List Nat))
  | [] => .ok (st, [])
  | ev :: rest =>
    match logStep st ev with
    | .error e => .error e
    | .ok (st2, out) =>
      match logRun st2 rest with
      | .error e => .error e
      | .ok (st3, outs) => .ok (st3, out ++ outs)

def isRunSim : Event → Bool
  | .runSim _ => true
  | _ => false

/-- Recognise a recorded command line. -/
def isCmdLine : ScriptLine → Bool
  | .cmd _ _ => true
  | _ => false

/-- Recognise a synthetic `D` line. -/
def isSyntheticDone : ScriptLine → Bool
  | .syntheticDone _ => true
  | _ => false

def countCmds (ls : List ScriptLine) : Nat := ls.countP (fun l => isCmdLine l)

def countDones (ls : List ScriptLine) : Nat := ls.countP (fun l => isSyntheticDone l)

/-- Every synthetic `D` line is immediately preceded by a note line. -/
def notesPrecedeDones : List ScriptLine → Bool
  | [] => true
  | .note _ :: .syntheticDone _ :: rest => notesPrecedeDones rest
  | .syntheticDone _ :: _ => false
  | _ :: rest => notesPrecedeDones rest

example : scanHexBits (['A', 'B', 'C']) 8 = .ok [0xBC] := rfl

example : sendBitsChars (intToBuffer (-1) 9) 9 true = .ok (['-', '0', '0', '0', '1']) := rfl

example : scanHexBits (['-', '0', '0', '0', '1']) 9 =
    .error ("Scanned value exceeded the byte count.") := rfl

example : sendBitsChars (intToBuffer (-1) 8) 8 true = .ok (['-', '0', '1']) := rfl

example : scanHexBits (['-', '0', '1']) 8 = .ok [0xFF] := rfl

example : sendBitsChars (intToBuffer 0 8) 8 false = .ok (['0', '0']) := rfl

example : scanHexBits (['1', 'F']) 4 = .error ("Scanned value exceeded the bit count.") := rfl

example : scanHexBits (['A', 'B', 'C']) 12 = .ok [0xBC, 0x0A] := rfl

theorem natToLEBytes_length (v k : Nat) : (natToLEBytes v k).length = k := by
  induction k generalizing v with
  | zero => rfl
  | succ k ih => simp [natToLEBytes, ih]

theorem natToLEBytes_lt (v k : Nat) : ∀ b ∈ natToLEBytes v k, b < 256 := by
  induction k generalizing v with
  | zero => simp [natToLEBytes]
  | succ k ih =>
    intro b hb
    rcases List.mem_cons.mp hb with h | h
    · omega
    · exact ih _ _ h

theorem mod_mul_256 (v M : Nat) (hM : 0 < M) :
    v % (256 * M) = v % 256 + 256 * (v / 256 % M) := by
  have h1 := Nat.div_add_mod v 256
  have h2 := Nat.div_add_mod (v / 256) M
  have hr : v / 256 % M < M := Nat.mod_lt _ hM
  have hassoc : 256 * (M * (v / 256 / M)) = (256 * M) * (v / 256 / M) := by ring
  have hv2 : v = (v % 256 + 256 * (v / 256 % M)) + (256 * M) * (v / 256 / M) := by
    rw [← hassoc]; omega
  conv_lhs => rw [hv2]
  rw [Nat.add_mul_mod_self_left]
  apply Nat.mod_eq_of_lt
  omega

theorem leBytesToNat_natToLEBytes (v k : Nat) :
    leBytesToNat (natToLEBytes v k) = v % 256 ^ k := by
  induction k generalizing v with
  | zero => simp [natToLEBytes, leBytesToNat, Nat.mod_one]
  | succ k ih =>
    have hM : 0 < (256 : Nat) ^ k := Nat.pos_pow_of_pos _ (by norm_num)
    simp only [natToLEBytes, leBytesToNat, ih]
    rw [pow_succ', mod_mul_256 _ _ hM]

theorem leBytesToNat_lt (bs : List Nat) (hb : ∀ b ∈ bs, b < 256) :
    leBytesToNat bs < 256 ^ bs.length := by
  induction bs with
  | nil => simp [leBytesToNat]
  | cons b t ih =>
    have h1 : b < 256 := hb b (by simp)
    have h2 : leBytesToNat t < 256 ^ t.length := ih fun x hx => hb x (by simp [hx])
    simp only [leBytesToNat, List.length_cons, pow_succ]
    omega

theorem natToLEBytes_leBytesToNat (bs : List Nat) (hb : ∀ b ∈ bs, b < 256) :
    natToLEBytes (leBytesToNat bs) bs.length = bs := by
  induction bs with
  | nil => rfl
  | cons b t ih =>
    have h1 : b < 256 := hb b (by simp)
    simp only [leBytesToNat, List.length_cons, natToLEBytes]
    have e1 : (b + 256 * leBytesToNat t) % 256 = b := by omega
    have e2 : (b + 256 * leBytesToNat t) / 256 = leBytesToNat t := by omega
    rw [e1, e2, ih fun x hx => hb x (by simp [hx])]

theorem natToLEBytes_getD (v k i : Nat) (h : i < k) :
    (natToLEBytes v k).getD i 0 = v / 256 ^ i % 256 := by
  induction k generalizing v i with
  | zero => omega
  | succ k ih =>
    cases i with
    | zero => simp [natToLEBytes]
    | succ i =>
      simp only [natToLEBytes, List.getD_cons_succ]
      rw [ih _ _ (by omega), Nat.div_div_eq_div_mul, ← pow_succ']

theorem leBytesToNat_set (bs : List Nat) (i x : Nat) (h : i + 1 = bs.length) :
    leBytesToNat (bs.set i x) + 256 ^ i * bs.getD i 0
      = leBytesToNat bs + 256 ^ i * x := by
  induction bs generalizing i with
  | nil => simp at h
  | cons b t ih =>
    cases i with
    | zero =>
      have ht : t = [] := by
        cases t with
        | nil => rfl
        | cons c u => simp at h
      subst ht
      simp only [List.set_cons_zero, leBytesToNat, pow_zero, List.getD_cons_zero]
      omega
    | succ i =>
      have hi : i + 1 = t.length := by simpa using h
      have := ih i hi
      simp only [List.set_cons_succ, leBytesToNat, List.getD_cons_succ, pow_succ']
      ring_nf
      ring_nf at this
      linarith [this]

theorem negateBytesAux_length (bs : List Nat) (c : Nat) :
    (negateBytesAux bs c).1.length = bs.length := by
  induction bs generalizing c with
  | nil => rfl
  | cons b t ih => simp [negateBytesAux, ih]

theorem negateBytesAux_lt (bs : List Nat) (c : Nat) :
    ∀ b ∈ (negateBytesAux bs c).1, b < 256 := by
  induction bs generalizing c with
  | nil => simp [negateBytesAux]
  | cons b t ih =>
    intro y hy
    simp only [negateBytesAux, List.mem_cons] at hy
    rcases hy with h | h
    · omega
    · exact ih _ _ h

theorem negateBytesAux_carry (bs : List Nat) (c : Nat) (hb : ∀ b ∈ bs, b < 256)
    (hc : c ≤ 1) : (negateBytesAux bs c).2 ≤ 1 := by
  induction bs generalizing c with
  | nil => exact hc
  | cons b t ih =>
    have h1 : b < 256 := hb b (by simp)
    simp only [negateBytesAux]
    exact ih _ (fun x hx => hb x (by simp [hx])) (by omega)

theorem negateBytesAux_spec (bs : List Nat) (c : Nat) (hb : ∀ b ∈ bs, b < 256)
    (hc : c ≤ 1) :
    leBytesToNat (negateBytesAux bs c).1 + 256 ^ bs.length * (negateBytesAux bs c).2
      = 256 ^ bs.length - 1 - leBytesToNat bs + c := by
  induction bs generalizing c with
  | nil => simp [negateBytesAux, leBytesToNat]
  | cons b t ih =>
    have h1 : b < 256 := hb b (by simp)
    have hbt : ∀ x ∈ t, x < 256 := fun x hx => hb x (by simp [hx])
    have hlt : leBytesToNat t < 256 ^ t.length := leBytesToNat_lt t hbt
    have hcar : (negateBytesAux t ((255 - b + c) / 256)).2 ≤ 1 :=
      negateBytesAux_carry t _ hbt (by omega)
    have := ih ((255 - b + c) / 256) hbt (by omega)
    simp only [negateBytesAux, leBytesToNat, List.length_cons, pow_succ']
    have hnlt : leBytesToNat (negateBytesAux t ((255 - b + c) / 256)).1
        < 256 ^ t.length :=
      leBytesToNat_lt _ (negateBytesAux_lt t _) |>.trans_eq
        (by rw [negateBytesAux_length])
    rcases Nat.le_one_iff_eq_zero_or_eq_one.mp hcar with h2 | h2
    · rw [h2] at this ⊢
      set P := (256 : Nat) ^ t.length
      omega
    · rw [h2] at this ⊢
      set P := (256 : Nat) ^ t.length
      omega

set_option maxRecDepth 4000 in
theorem scanHexCharacter_hexDigitChar :
    ∀ n : Nat, n < 16 → scanHexCharacter (hexDigitChar n) = .ok n := by decide

set_option maxRecDepth 4000 in
theorem hexDigitChar_ne_dash : ∀ n : Nat, n < 16 → hexDigitChar n ≠ '-' := by decide

set_option maxRecDepth 4000 in
theorem shift_or_recompose : ∀ b : Nat, b < 256 → ((b / 16) <<< 4) ||| (b % 16) = b := by
  decide

theorem pairsLE_cons (b : Nat) (t : List Nat) :
    pairsLE (b :: t) = hexDigitChar (b % 16) :: hexDigitChar (b / 16) :: pairsLE t := rfl

theorem pairsLE_ne_nil (bs : List Nat) (h : bs ≠ []) : pairsLE bs ≠ [] := by
  cases bs with
  | nil => exact absurd rfl h
  | cons b t => simp [pairsLE_cons]

theorem emitBytesHex_cons (b : Nat) (t : List Nat) :
    emitBytesHex (b :: t) = emitBytesHex t ++ hexPair b := by
  simp [emitBytesHex]

theorem emitBytesHex_length (bs : List Nat) :
    (emitBytesHex bs).length = 2 * bs.length := by
  induction bs with
  | nil => rfl
  | cons b t ih =>
    simp [emitBytesHex_cons, hexPair, ih]
    omega

theorem emitBytesHex_reverse (bs : List Nat) :
    (emitBytesHex bs).reverse = pairsLE bs := by
  induction bs with
  | nil => rfl
  | cons b t ih => simp [emitBytesHex_cons, pairsLE_cons, hexPair, ih]

theorem applyNegation_false (b c : Nat) : applyNegation false b c = .ok (b, c) := rfl

theorem applyNegation_true (b c : Nat) (hb : b < 256) (hc : c ≤ 1) :
    applyNegation true b c = .ok ((255 - b + c) % 256, (255 - b + c) / 256) := by
  have h : ¬ 2 ≤ (255 - b + c) / 256 := by omega
  simp [applyNegation, h]

theorem scanLoop_pairsLE_false (bs : List Nat) :
    ∀ carry, bs ≠ [] → (∀ b ∈ bs, b < 256) →
      scanLoop false bs.length (pairsLE bs) carry = .ok (bs, [], carry) := by
  induction bs with
  | nil => intro carry hne _; exact absurd rfl hne
  | cons b t ih =>
    intro carry _ hb
    have h1 : b < 256 := hb b (by simp)
    have hlow := scanHexCharacter_hexDigitChar (b % 16) (by omega)
    have hhigh := scanHexCharacter_hexDigitChar (b / 16) (by omega)
    rw [pairsLE_cons, List.length_cons, scanLoop]
    simp only [hlow, hhigh, shift_or_recompose b h1, applyNegation_false]
    cases t with
    | nil => simp [pairsLE]
    | cons c2 u =>
      have hpne : pairsLE (c2 :: u) ≠ [] := pairsLE_ne_nil _ (by simp)
      rw [if_neg (by simp), if_neg (by simp [List.isEmpty_iff, hpne])]
      rw [ih carry (by simp) (fun x hx => hb x (by simp [hx]))]

theorem scanLoop_pairsLE_true (bs : List Nat) :
    ∀ carry, bs ≠ [] → (∀ b ∈ bs, b < 256) → carry ≤ 1 →
      scanLoop true bs.length (pairsLE bs) carry =
        .ok ((negateBytesAux bs carry).1, [], (negateBytesAux bs carry).2) := by
  induction bs with
  | nil => intro carry hne _ _; exact absurd rfl hne
  | cons b t ih =>
    intro carry _ hb hc
    have h1 : b < 256 := hb b (by simp)
    have hlow := scanHexCharacter_hexDigitChar (b % 16) (by omega)
    have hhigh := scanHexCharacter_hexDigitChar (b / 16) (by omega)
    rw [pairsLE_cons, List.length_cons, scanLoop]
    simp only [hlow, hhigh, shift_or_recompose b h1, applyNegation_true b carry h1 hc]
    cases t with
    | nil => simp [pairsLE, negateBytesAux]
    | cons c2 u =>
      have hpne : pairsLE (c2 :: u) ≠ [] := pairsLE_ne_nil _ (by simp)
      rw [if_neg (by simp), if_neg (by simp [List.isEmpty_iff, hpne])]
      rw [ih ((255 - b + carry) / 256) (by simp)
        (fun x hx => hb x (by simp [hx])) (by omega)]
      simp [negateBytesAux]

set_option maxRecDepth 8000 in
theorem land_byte_facts : ∀ s : Nat, s < 8 → ∀ t : Nat, t < 256 →
    (t < 2 ^ s → t &&& 2 ^ s = 0) ∧
    (2 ^ s ≤ t → t < 2 ^ (s + 1) → t &&& 2 ^ s ≠ 0) ∧
    (t &&& (2 ^ s - 1) = t % 2 ^ s) ∧
    (t < 2 ^ s → t &&& (256 - 2 ^ s) = 0) ∧
    (256 - 2 ^ s ≤ t → t &&& (256 - 2 ^ s) = 256 - 2 ^ s) := by decide

theorem signBitMask_eq (W : Nat) (hW : 1 ≤ W) :
    signBitMask W = 2 ^ ((W - 1) % 8) := by
  have h8 : W % 8 < 8 := Nat.mod_lt _ (by norm_num)
  unfold signBitMask
  rcases hm : W % 8 with _ | _ | _ | _ | _ | _ | _ | _ | k
  · rw [show (W - 1) % 8 = 7 by omega]; rfl
  · rw [show (W - 1) % 8 = 0 by omega]; rfl
  · rw [show (W - 1) % 8 = 1 by omega]; rfl
  · rw [show (W - 1) % 8 = 2 by omega]; rfl
  · rw [show (W - 1) % 8 = 3 by omega]; rfl
  · rw [show (W - 1) % 8 = 4 by omega]; rfl
  · rw [show (W - 1) % 8 = 5 by omega]; rfl
  · rw [show (W - 1) % 8 = 6 by omega]; rfl
  · exfalso; omega

theorem highOrderByteMask_eq (VW : Nat) :
    highOrderByteMask VW = (if VW % 8 = 0 then 0 else 256 - 2 ^ (VW % 8)) := by
  have h8 : VW % 8 < 8 := Nat.mod_lt _ (by norm_num)
  unfold highOrderByteMask
  rcases hm : VW % 8 with _ | _ | _ | _ | _ | _ | _ | _ | k
  · rfl
  · rfl
  · rfl
  · rfl
  · rfl
  · rfl
  · rfl
  · rfl
  · exfalso; omega

theorem scanHexBits_emitBytesHex (bs : List Nat) (W : Nat)
    (hlen : bs.length = (W + 7) / 8) (hW : 1 ≤ W) (hb : ∀ b ∈ bs, b < 256) :
    scanHexBits (emitBytesHex bs) W =
      if bs.getD (bs.length - 1) 0 &&& highOrderByteMask W ≠ 0 then
        .error ("Scanned value exceeded the bit count.")
      else .ok bs := by
  have hbs_ne : bs ≠ [] := by
    intro h
    rw [h] at hlen
    simp at hlen
    omega
  obtain ⟨bl, tl, hrev⟩ := List.exists_cons_of_ne_nil
    (show bs.reverse ≠ [] by simpa using hbs_ne)
  have hbl : bl < 256 := hb bl (by rw [← List.mem_reverse, hrev]; simp)
  have hemit : emitBytesHex bs =
      hexDigitChar (bl / 16) :: (hexDigitChar (bl % 16) :: (tl.map hexPair).flatten) := by
    rw [emitBytesHex, hrev]
    simp [hexPair]
  rw [hemit, scanHexBits]
  rw [if_neg (by omega), if_neg (hexDigitChar_ne_dash (bl / 16) (by omega)), ← hemit]
  unfold scanHexBitsCore
  rw [emitBytesHex_reverse, show (W + 7) / 8 = bs.length from hlen.symm]
  simp only [scanLoop_pairsLE_false bs 1 hbs_ne hb, List.length_nil,
    Nat.sub_self, List.replicate_zero, List.append_nil]
  norm_num

theorem scanHexBits_neg_emitBytesHex (bs : List Nat) (W : Nat)
    (hlen : bs.length = (W + 7) / 8) (hW : 2 ≤ W) (hmod : W % 8 ≠ 1)
    (hb : ∀ b ∈ bs, b < 256) (hpos : 1 ≤ leBytesToNat bs) :
    scanHexBits ('-' :: emitBytesHex bs) W =
      if (negateBytesAux bs 1).1.getD (bs.length - 1) 0 &&& highOrderByteMask (W - 1)
          ≠ highOrderByteMask (W - 1) then
        .error ("Scanned negative value exceeded the bit count.")
      else .ok (negateBytesAux bs 1).1 := by
  have hbs_ne : bs ≠ [] := by
    intro h
    rw [h] at hlen
    simp at hlen
    omega
  have hene : emitBytesHex bs ≠ [] := by
    intro h
    have hl := emitBytesHex_length bs
    rw [h] at hl
    simp only [List.length_nil] at hl
    have hz : bs.length = 0 := by omega
    exact hbs_ne (List.length_eq_zero.mp hz)
  rw [scanHexBits]
  rw [if_neg (by omega), if_pos rfl,
    if_neg (by simpa [List.isEmpty_iff] using hene), if_neg (by omega)]
  unfold scanHexBitsCore
  have hvbc : (W - 1 + 7) / 8 = bs.length := by omega
  rw [emitBytesHex_reverse, hvbc, show (W + 7) / 8 = bs.length from hlen.symm]
  have hcz : (negateBytesAux bs 1).2 = 0 := by
    have hsp := negateBytesAux_spec bs 1 hb (by norm_num)
    have hlt := leBytesToNat_lt bs hb
    have hc1 := negateBytesAux_carry bs 1 hb (by norm_num)
    rcases Nat.le_one_iff_eq_zero_or_eq_one.mp hc1 with h | h
    · exact h
    · exfalso
      rw [h] at hsp
      set P := (256 : Nat) ^ bs.length
      omega
  simp only [scanLoop_pairsLE_true bs 1 hbs_ne hb (by norm_num), List.length_nil,
    hcz, negateBytesAux_length, Nat.sub_self, List.replicate_zero, List.append_nil]
  norm_num

theorem list_set_getD_self (l : List Nat) (i : Nat) : l.set i (l.getD i 0) = l := by
  induction l generalizing i with
  | nil => simp
  | cons b t ih =>
    cases i with
    | zero => simp
    | succ i =>
      simp only [List.set_cons_succ, List.getD_cons_succ, List.cons.injEq, true_and]
      exact ih i

theorem mod_mul_general (v B m : Nat) (hB : 0 < B) (hm : 0 < m) :
    v % (B * m) = v % B + B * (v / B % m) := by
  have h1 := Nat.div_add_mod v B
  have h2 := Nat.div_add_mod (v / B) m
  have hr : v / B % m < m := Nat.mod_lt _ hm
  have hrB : v % B < B := Nat.mod_lt _ hB
  have e1 : B * (v / B) = B * m * (v / B / m) + B * (v / B % m) := by
    calc B * (v / B) = B * (m * (v / B / m) + v / B % m) := by rw [h2]
      _ = B * m * (v / B / m) + B * (v / B % m) := by ring
  have hv2 : v = (v % B + B * (v / B % m)) + B * m * (v / B / m) := by linarith
  conv_lhs => rw [hv2]
  rw [Nat.add_mul_mod_self_left]
  apply Nat.mod_eq_of_lt
  have h3 : B * (v / B % m + 1) ≤ B * m := Nat.mul_le_mul_left _ (by omega)
  rw [Nat.mul_add, Nat.mul_one] at h3
  linarith

theorem negateBytes_value (bs : List Nat) (hb : ∀ b ∈ bs, b < 256)
    (hpos : 1 ≤ leBytesToNat bs) :
    leBytesToNat (negateBytesAux bs 1).1 = 256 ^ bs.length - leBytesToNat bs ∧
      (negateBytesAux bs 1).2 = 0 := by
  have hsp := negateBytesAux_spec bs 1 hb (by norm_num)
  have hlt := leBytesToNat_lt bs hb
  have hc1 := negateBytesAux_carry bs 1 hb (by norm_num)
  have hn1 := leBytesToNat_lt (negateBytesAux bs 1).1 (negateBytesAux_lt bs 1)
  rw [negateBytesAux_length] at hn1
  set P := (256 : Nat) ^ bs.length
  rcases Nat.le_one_iff_eq_zero_or_eq_one.mp hc1 with h | h <;> rw [h] at hsp <;> omega

theorem pow256_as_pow2 (k : Nat) : (256 : Nat) ^ k = 2 ^ (8 * k) := by
  rw [show (256 : Nat) = 2 ^ 8 by norm_num, ← pow_mul]

/-- The top byte of the canonical buffer of a `W`-bit value has all
inapplicable bits clear. -/
theorem topByte_mask_zero (u W : Nat) (hW : 1 ≤ W) (hu : u < 2 ^ W) :
    (natToLEBytes u ((W + 7) / 8)).getD ((W + 7) / 8 - 1) 0 &&& highOrderByteMask W
      = 0 := by
  set bc := (W + 7) / 8 with hbc
  have hbc1 : 1 ≤ bc := by omega
  have hEpos : 0 < (256 : Nat) ^ (bc - 1) := pow_pos (by norm_num) _
  have hdiv256 : u / 256 ^ (bc - 1) < 256 := by
    rw [Nat.div_lt_iff_lt_mul hEpos]
    calc u < 2 ^ W := hu
      _ ≤ 256 ^ bc := by rw [pow256_as_pow2]; exact Nat.pow_le_pow_right (by norm_num) (by omega)
      _ = 256 * 256 ^ (bc - 1) := by rw [← pow_succ']; congr 1; omega
  have htop : (natToLEBytes u bc).getD (bc - 1) 0 = u / 256 ^ (bc - 1) := by
    rw [natToLEBytes_getD _ _ _ (by omega)]
    exact Nat.mod_eq_of_lt hdiv256
  rw [htop, highOrderByteMask_eq]
  by_cases hr : W % 8 = 0
  · simp [hr]
  · rw [if_neg hr]
    have hs8 : W % 8 < 8 := Nat.mod_lt _ (by norm_num)
    have hdiv : u / 256 ^ (bc - 1) < 2 ^ (W % 8) := by
      rw [Nat.div_lt_iff_lt_mul hEpos]
      calc u < 2 ^ W := hu
        _ = 2 ^ (W % 8) * 256 ^ (bc - 1) := by
          rw [pow256_as_pow2, ← pow_add]; congr 1; omega
    exact (land_byte_facts (W % 8) hs8 _ hdiv256).2.2.2.1 hdiv

/-- Unsigned emission is unconditional: all bytes, two digits each. -/
theorem sendBitsChars_unsigned (bs : List Nat) (W : Nat) (hW : 1 ≤ W) :
    sendBitsChars bs W false = .ok (emitBytesHex bs) := by
  unfold sendBitsChars
  rw [if_neg (by omega)]
  simp

theorem sendBitsChars_signed_nonneg (u W : Nat) (hW : 2 ≤ W) (hu : u < 2 ^ (W - 1)) :
    sendBitsChars (natToLEBytes u ((W + 7) / 8)) W true =
      .ok (emitBytesHex (natToLEBytes u ((W + 7) / 8))) := by
  have hbc1 : 1 ≤ (W + 7) / 8 := by omega
  have hEpos : 0 < (256 : Nat) ^ ((W + 7) / 8 - 1) := pow_pos (by norm_num) _
  have hs8 : (W - 1) % 8 < 8 := Nat.mod_lt _ (by norm_num)
  have hdiv256 : u / 256 ^ ((W + 7) / 8 - 1) < 256 := by
    rw [Nat.div_lt_iff_lt_mul hEpos]
    calc u < 2 ^ (W - 1) := hu
      _ ≤ 256 ^ ((W + 7) / 8) := by
        rw [pow256_as_pow2]
        exact Nat.pow_le_pow_right (by norm_num) (by omega)
      _ = 256 * 256 ^ ((W + 7) / 8 - 1) := by rw [← pow_succ']; congr 1; omega
  have htop : (natToLEBytes u ((W + 7) / 8)).getD ((W + 7) / 8 - 1) 0
      = u / 256 ^ ((W + 7) / 8 - 1) := by
    rw [natToLEBytes_getD _ _ _ (by omega)]
    exact Nat.mod_eq_of_lt hdiv256
  have hdivs : u / 256 ^ ((W + 7) / 8 - 1) < 2 ^ ((W - 1) % 8) := by
    rw [Nat.div_lt_iff_lt_mul hEpos]
    calc u < 2 ^ (W - 1) := hu
      _ = 2 ^ ((W - 1) % 8) * 256 ^ ((W + 7) / 8 - 1) := by
        rw [pow256_as_pow2, ← pow_add]; congr 1; omega
  have hsign0 : u / 256 ^ ((W + 7) / 8 - 1) &&& 2 ^ ((W - 1) % 8) = 0 :=
    (land_byte_facts _ hs8 _ hdiv256).1 hdivs
  have hmasklow : u / 256 ^ ((W + 7) / 8 - 1) &&& (2 ^ ((W - 1) % 8) - 1)
      = u / 256 ^ ((W + 7) / 8 - 1) := by
    rw [(land_byte_facts _ hs8 _ hdiv256).2.2.1]
    exact Nat.mod_eq_of_lt hdivs
  unfold sendBitsChars
  rw [if_neg (by omega : ¬ W = 0),
    if_neg (show ¬ ((true = true) ∧ W ≤ 1) by simp only [true_and]; omega),
    if_pos rfl, signBitMask_eq W (by omega)]
  simp only [htop, hsign0, hmasklow, ne_eq, not_true_eq_false, if_false, ite_false,
    not_false_eq_true, reduceCtorEq]
  rw [← htop, list_set_getD_self]
  simp

theorem sendBitsChars_signed_neg (a W : Nat) (hW : 2 ≤ W) (ha1 : 1 ≤ a)
    (ha : a < 2 ^ (W - 1)) :
    sendBitsChars (natToLEBytes (2 ^ W - a) ((W + 7) / 8)) W true =
      .ok ('-' :: emitBytesHex (natToLEBytes a ((W + 7) / 8))) := by
  have hbc1 : 1 ≤ (W + 7) / 8 := by omega
  have hEpos : 0 < (256 : Nat) ^ ((W + 7) / 8 - 1) := pow_pos (by norm_num) _
  have hs8 : (W - 1) % 8 < 8 := Nat.mod_lt _ (by norm_num)
  have hE2 : 256 ^ ((W + 7) / 8 - 1) * 2 ^ ((W - 1) % 8) = 2 ^ (W - 1) := by
    rw [pow256_as_pow2, ← pow_add]
    congr 1
    omega
  have h256bc : (256 : Nat) ^ ((W + 7) / 8) = 256 * 256 ^ ((W + 7) / 8 - 1) := by
    rw [← pow_succ']
    congr 1
    omega
  have hWpow : (2 : Nat) ^ W = 2 * 2 ^ (W - 1) := by
    rw [← pow_succ']
    congr 1
    omega
  have h2s128 : (2 : Nat) ^ ((W - 1) % 8) ≤ 128 := by
    calc (2 : Nat) ^ ((W - 1) % 8) ≤ 2 ^ 7 := Nat.pow_le_pow_right (by norm_num) (by omega)
      _ = 128 := by norm_num
  have hu1 : 2 ^ (W - 1) < 2 ^ W - a := by omega
  have huW : 2 ^ W - a < 2 ^ W := by omega
  have hu256 : 2 ^ W - a < 256 ^ ((W + 7) / 8) := by
    have hscale := Nat.mul_le_mul_left (256 ^ ((W + 7) / 8 - 1)) h2s128
    rw [h256bc]
    calc 2 ^ W - a < 2 ^ W := huW
      _ = 2 * 2 ^ (W - 1) := hWpow
      _ = 2 * (256 ^ ((W + 7) / 8 - 1) * 2 ^ ((W - 1) % 8)) := by rw [hE2]
      _ ≤ 256 * 256 ^ ((W + 7) / 8 - 1) := by linarith
  have hdiv256 : (2 ^ W - a) / 256 ^ ((W + 7) / 8 - 1) < 256 := by
    rw [Nat.div_lt_iff_lt_mul hEpos]
    calc 2 ^ W - a < 256 ^ ((W + 7) / 8) := hu256
      _ = 256 * 256 ^ ((W + 7) / 8 - 1) := h256bc
  have htop : (natToLEBytes (2 ^ W - a) ((W + 7) / 8)).getD ((W + 7) / 8 - 1) 0
      = (2 ^ W - a) / 256 ^ ((W + 7) / 8 - 1) := by
    rw [natToLEBytes_getD _ _ _ (by omega)]
    exact Nat.mod_eq_of_lt hdiv256
  have hsgeb : 2 ^ ((W - 1) % 8) ≤ (2 ^ W - a) / 256 ^ ((W + 7) / 8 - 1) := by
    rw [Nat.le_div_iff_mul_le hEpos]
    calc 2 ^ ((W - 1) % 8) * 256 ^ ((W + 7) / 8 - 1) = 2 ^ (W - 1) := by
          rw [mul_comm]; exact hE2
      _ ≤ 2 ^ W - a := by omega
  have hslt : (2 ^ W - a) / 256 ^ ((W + 7) / 8 - 1) < 2 ^ ((W - 1) % 8 + 1) := by
    rw [Nat.div_lt_iff_lt_mul hEpos]
    have hq : (2 : Nat) ^ ((W - 1) % 8 + 1) * 256 ^ ((W + 7) / 8 - 1) = 2 ^ W := by
      rw [pow_succ']
      calc 2 * 2 ^ ((W - 1) % 8) * 256 ^ ((W + 7) / 8 - 1)
          = 2 * (256 ^ ((W + 7) / 8 - 1) * 2 ^ ((W - 1) % 8)) := by ring
        _ = 2 * 2 ^ (W - 1) := by rw [hE2]
        _ = 2 ^ W := hWpow.symm
    omega
  have hsign : (2 ^ W - a) / 256 ^ ((W + 7) / 8 - 1) &&& 2 ^ ((W - 1) % 8) ≠ 0 :=
    (land_byte_facts _ hs8 _ hdiv256).2.1 hsgeb hslt
  have hbnds := natToLEBytes_lt (2 ^ W - a) ((W + 7) / 8)
  have hlen := natToLEBytes_length (2 ^ W - a) ((W + 7) / 8)
  have hleB : leBytesToNat (natToLEBytes (2 ^ W - a) ((W + 7) / 8)) = 2 ^ W - a := by
    rw [leBytesToNat_natToLEBytes]
    exact Nat.mod_eq_of_lt hu256
  have hnegv := negateBytes_value (natToLEBytes (2 ^ W - a) ((W + 7) / 8)) hbnds
    (by rw [hleB]; omega)
  rw [hlen, hleB] at hnegv
  have hb1len : (negateBytesAux (natToLEBytes (2 ^ W - a) ((W + 7) / 8)) 1).1.length
      = (W + 7) / 8 := by rw [negateBytesAux_length, hlen]
  have hb1lt := negateBytesAux_lt (natToLEBytes (2 ^ W - a) ((W + 7) / 8)) 1
  have hb1 : (negateBytesAux (natToLEBytes (2 ^ W - a) ((W + 7) / 8)) 1).1
      = natToLEBytes (256 ^ ((W + 7) / 8) - (2 ^ W - a)) ((W + 7) / 8) := by
    have h := natToLEBytes_leBytesToNat _ hb1lt
    rw [hb1len, hnegv.1] at h
    exact h.symm
  -- Arithmetic on M := 256 ^ bc - (2 ^ W - a)
  have hMlt : 256 ^ ((W + 7) / 8) - (2 ^ W - a) < 256 ^ ((W + 7) / 8) := by
    have := pow_pos (show 0 < (256 : Nat) by norm_num) ((W + 7) / 8)
    omega
  have hMdiv256 : (256 ^ ((W + 7) / 8) - (2 ^ W - a)) / 256 ^ ((W + 7) / 8 - 1) < 256 := by
    rw [Nat.div_lt_iff_lt_mul hEpos]
    calc 256 ^ ((W + 7) / 8) - (2 ^ W - a) < 256 ^ ((W + 7) / 8) := hMlt
      _ = 256 * 256 ^ ((W + 7) / 8 - 1) := h256bc
  have hT : (natToLEBytes (256 ^ ((W + 7) / 8) - (2 ^ W - a)) ((W + 7) / 8)).getD
        ((W + 7) / 8 - 1) 0
      = (256 ^ ((W + 7) / 8) - (2 ^ W - a)) / 256 ^ ((W + 7) / 8 - 1) := by
    rw [natToLEBytes_getD _ _ _ (by omega)]
    exact Nat.mod_eq_of_lt hMdiv256
  -- M % 2 ^ (W - 1) = a
  have e1 : (256 : Nat) ^ ((W + 7) / 8) = 2 ^ (W - 1) * 2 ^ (8 * ((W + 7) / 8) - (W - 1)) := by
    rw [pow256_as_pow2, ← pow_add]
    congr 1
    omega
  have e2 : (2 : Nat) ^ W = 2 ^ (W - 1) * 2 := by rw [← pow_succ]; congr 1; omega
  have e3 : (2 : Nat) ≤ 2 ^ (8 * ((W + 7) / 8) - (W - 1)) := by
    calc (2 : Nat) = 2 ^ 1 := by norm_num
      _ ≤ 2 ^ (8 * ((W + 7) / 8) - (W - 1)) := Nat.pow_le_pow_right (by norm_num) (by omega)
  have e4 : (2 : Nat) ^ (W - 1) * (2 ^ (8 * ((W + 7) / 8) - (W - 1)) - 2)
      = 2 ^ (W - 1) * 2 ^ (8 * ((W + 7) / 8) - (W - 1)) - 2 ^ (W - 1) * 2 :=
    Nat.mul_sub _ _ _
  have e5 : (2 : Nat) ^ (W - 1) * 2 ≤ 2 ^ (W - 1) * 2 ^ (8 * ((W + 7) / 8) - (W - 1)) :=
    Nat.mul_le_mul_left _ e3
  have hM2 : 256 ^ ((W + 7) / 8) - (2 ^ W - a)
      = 2 ^ (W - 1) * (2 ^ (8 * ((W + 7) / 8) - (W - 1)) - 2) + a := by
    omega
  have hMmod : (256 ^ ((W + 7) / 8) - (2 ^ W - a)) % 2 ^ (W - 1) = a := by
    conv_lhs => rw [hM2]
    rw [Nat.mul_add_mod]
    exact Nat.mod_eq_of_lt ha
  -- the masked set equals the canonical buffer of a
  have hmasked : (256 ^ ((W + 7) / 8) - (2 ^ W - a)) / 256 ^ ((W + 7) / 8 - 1)
        &&& (2 ^ ((W - 1) % 8) - 1)
      = (256 ^ ((W + 7) / 8) - (2 ^ W - a)) / 256 ^ ((W + 7) / 8 - 1) % 2 ^ ((W - 1) % 8) :=
    (land_byte_facts _ hs8 _ hMdiv256).2.2.1
  have hsetlen : (W + 7) / 8 - 1 + 1
      = (natToLEBytes (256 ^ ((W + 7) / 8) - (2 ^ W - a)) ((W + 7) / 8)).length := by
    rw [natToLEBytes_length]
    omega
  have hsetlen2 := hsetlen
  have hset := leBytesToNat_set
    (natToLEBytes (256 ^ ((W + 7) / 8) - (2 ^ W - a)) ((W + 7) / 8)) ((W + 7) / 8 - 1)
    ((256 ^ ((W + 7) / 8) - (2 ^ W - a)) / 256 ^ ((W + 7) / 8 - 1) % 2 ^ ((W - 1) % 8))
    hsetlen
  rw [hT] at hset
  rw [leBytesToNat_natToLEBytes _ _, Nat.mod_eq_of_lt hMlt] at hset
  have hsplit := mod_mul_general (256 ^ ((W + 7) / 8) - (2 ^ W - a))
    (256 ^ ((W + 7) / 8 - 1)) (2 ^ ((W - 1) % 8)) hEpos (pow_pos (by norm_num) _)
  have hdm := Nat.div_add_mod (256 ^ ((W + 7) / 8) - (2 ^ W - a)) (256 ^ ((W + 7) / 8 - 1))
  have hXa : (256 ^ ((W + 7) / 8) - (2 ^ W - a)) % (256 ^ ((W + 7) / 8 - 1) * 2 ^ ((W - 1) % 8))
      = a := by
    rw [hE2]
    exact hMmod
  have hb2v : leBytesToNat ((natToLEBytes (256 ^ ((W + 7) / 8) - (2 ^ W - a))
        ((W + 7) / 8)).set ((W + 7) / 8 - 1)
        ((256 ^ ((W + 7) / 8) - (2 ^ W - a)) / 256 ^ ((W + 7) / 8 - 1) % 2 ^ ((W - 1) % 8)))
      = a := by
    linarith [hset, hsplit, hXa, hdm]
  have hb2lt : ∀ x ∈ (natToLEBytes (256 ^ ((W + 7) / 8) - (2 ^ W - a))
        ((W + 7) / 8)).set ((W + 7) / 8 - 1)
        ((256 ^ ((W + 7) / 8) - (2 ^ W - a)) / 256 ^ ((W + 7) / 8 - 1) % 2 ^ ((W - 1) % 8)),
      x < 256 := by
    intro x hx
    rcases List.mem_or_eq_of_mem_set hx with h | h
    · exact natToLEBytes_lt _ _ x h
    · subst h
      have hmd : (256 ^ ((W + 7) / 8) - (2 ^ W - a)) / 256 ^ ((W + 7) / 8 - 1)
          % 2 ^ ((W - 1) % 8) < 2 ^ ((W - 1) % 8) := Nat.mod_lt _ (pow_pos (by norm_num) _)
      omega
  have hb2 : (natToLEBytes (256 ^ ((W + 7) / 8) - (2 ^ W - a))
        ((W + 7) / 8)).set ((W + 7) / 8 - 1)
        ((256 ^ ((W + 7) / 8) - (2 ^ W - a)) / 256 ^ ((W + 7) / 8 - 1) % 2 ^ ((W - 1) % 8))
      = natToLEBytes a ((W + 7) / 8) := by
    have h := natToLEBytes_leBytesToNat _ hb2lt
    rw [List.length_set, natToLEBytes_length, hb2v] at h
    exact h.symm
  unfold sendBitsChars
  rw [if_neg (by omega : ¬ W = 0),
    if_neg (show ¬ ((true = true) ∧ W ≤ 1) by simp only [true_and]; omega),
    if_pos rfl, signBitMask_eq W (by omega)]
  simp only [htop, eq_true hsign, if_true, ite_true, hb1, hT, hmasked, hb2]
  rfl

theorem pow2W_le_pow256 (W : Nat) : (2 : Nat) ^ W ≤ 256 ^ ((W + 7) / 8) := by
  rw [pow256_as_pow2]
  exact Nat.pow_le_pow_right (by norm_num) (by omega)

theorem scanHexBits_canonical (u W : Nat) (hW : 1 ≤ W) (hu : u < 2 ^ W) :
    scanHexBits (emitBytesHex (natToLEBytes u ((W + 7) / 8))) W
      = .ok (natToLEBytes u ((W + 7) / 8)) := by
  rw [scanHexBits_emitBytesHex _ _ (natToLEBytes_length _ _) hW (natToLEBytes_lt _ _),
    natToLEBytes_length,
    if_neg (by simp only [ne_eq, topByte_mask_zero u W hW hu, not_true_eq_false,
      not_false_eq_true])]

theorem scanHexBits_neg_canonical (a W : Nat) (hW : 2 ≤ W) (hmod : W % 8 ≠ 1)
    (ha1 : 1 ≤ a) (ha : a < 2 ^ (W - 1)) :
    scanHexBits ('-' :: emitBytesHex (natToLEBytes a ((W + 7) / 8))) W
      = .ok (natToLEBytes (256 ^ ((W + 7) / 8) - a) ((W + 7) / 8)) := by
  have hbc1 : 1 ≤ (W + 7) / 8 := by omega
  have hEpos : 0 < (256 : Nat) ^ ((W + 7) / 8 - 1) := pow_pos (by norm_num) _
  have hs8 : (W - 1) % 8 < 8 := Nat.mod_lt _ (by norm_num)
  have hE2 : 256 ^ ((W + 7) / 8 - 1) * 2 ^ ((W - 1) % 8) = 2 ^ (W - 1) := by
    rw [pow256_as_pow2, ← pow_add]
    congr 1
    omega
  have h256bc : (256 : Nat) ^ ((W + 7) / 8) = 256 * 256 ^ ((W + 7) / 8 - 1) := by
    rw [← pow_succ']
    congr 1
    omega
  have hWpow : (2 : Nat) ^ W = 2 * 2 ^ (W - 1) := by
    rw [← pow_succ']
    congr 1
    omega
  have ha256 : a < 256 ^ ((W + 7) / 8) := by
    have h1 := pow2W_le_pow256 W
    omega
  have hleB : leBytesToNat (natToLEBytes a ((W + 7) / 8)) = a := by
    rw [leBytesToNat_natToLEBytes]
    exact Nat.mod_eq_of_lt ha256
  rw [scanHexBits_neg_emitBytesHex _ _ (natToLEBytes_length _ _) hW hmod
    (natToLEBytes_lt _ _) (by rw [hleB]; omega)]
  have hnegv := negateBytes_value (natToLEBytes a ((W + 7) / 8)) (natToLEBytes_lt _ _)
    (by rw [hleB]; omega)
  rw [natToLEBytes_length, hleB] at hnegv
  have hnb : (negateBytesAux (natToLEBytes a ((W + 7) / 8)) 1).1
      = natToLEBytes (256 ^ ((W + 7) / 8) - a) ((W + 7) / 8) := by
    have h := natToLEBytes_leBytesToNat _ (negateBytesAux_lt (natToLEBytes a ((W + 7) / 8)) 1)
    rw [negateBytesAux_length, natToLEBytes_length, hnegv.1] at h
    exact h.symm
  rw [hnb, natToLEBytes_length]
  have hsne : (W - 1) % 8 ≠ 0 := by omega
  have hMlt : 256 ^ ((W + 7) / 8) - a < 256 ^ ((W + 7) / 8) := by omega
  have hMdiv256 : (256 ^ ((W + 7) / 8) - a) / 256 ^ ((W + 7) / 8 - 1) < 256 := by
    rw [Nat.div_lt_iff_lt_mul hEpos]
    omega
  have htop2 : (natToLEBytes (256 ^ ((W + 7) / 8) - a) ((W + 7) / 8)).getD
        ((W + 7) / 8 - 1) 0
      = (256 ^ ((W + 7) / 8) - a) / 256 ^ ((W + 7) / 8 - 1) := by
    rw [natToLEBytes_getD _ _ _ (by omega)]
    exact Nat.mod_eq_of_lt hMdiv256
  have hsub : (256 - 2 ^ ((W - 1) % 8)) * 256 ^ ((W + 7) / 8 - 1)
      = 256 ^ ((W + 7) / 8) - 2 ^ (W - 1) := by
    rw [Nat.sub_mul, h256bc, ← hE2]
    ring_nf
  have hge : 256 - 2 ^ ((W - 1) % 8)
      ≤ (256 ^ ((W + 7) / 8) - a) / 256 ^ ((W + 7) / 8 - 1) := by
    rw [Nat.le_div_iff_mul_le hEpos, hsub]
    omega
  have hm := (land_byte_facts _ hs8 _ hMdiv256).2.2.2.2 hge
  rw [highOrderByteMask_eq, if_neg hsne, htop2,
    if_neg (by simp only [ne_eq, hm, not_true_eq_false, not_false_eq_true])]

theorem bufferToInt_canonical (u W : Nat) (s : Bool) (_hW : 1 ≤ W) (hu : u < 2 ^ W)
    (hs : s = true → u < 2 ^ (W - 1)) :
    bufferToInt (natToLEBytes u ((W + 7) / 8)) W s = (u : Int) := by
  unfold bufferToInt
  rw [leBytesToNat_natToLEBytes,
    Nat.mod_eq_of_lt (lt_of_lt_of_le hu (pow2W_le_pow256 W)), Nat.mod_eq_of_lt hu]
  cases s with
  | false => simp
  | true =>
    rw [if_neg]
    intro hcon
    exact absurd hcon.2 (by have := hs rfl; omega)

theorem bufferToInt_canonical_neg (a W : Nat) (hW : 2 ≤ W) (ha1 : 1 ≤ a)
    (ha : a < 2 ^ (W - 1)) :
    bufferToInt (natToLEBytes (256 ^ ((W + 7) / 8) - a) ((W + 7) / 8)) W true
      = -(a : Int) := by
  have hWpow : (2 : Nat) ^ W = 2 * 2 ^ (W - 1) := by
    rw [← pow_succ']
    congr 1
    omega
  have e1 : (256 : Nat) ^ ((W + 7) / 8) = 2 ^ W * 2 ^ (8 * ((W + 7) / 8) - W) := by
    rw [pow256_as_pow2, ← pow_add]
    congr 1
    omega
  have e3 : (1 : Nat) ≤ 2 ^ (8 * ((W + 7) / 8) - W) := Nat.one_le_two_pow
  have e4 : (2 : Nat) ^ W * (2 ^ (8 * ((W + 7) / 8) - W) - 1)
      = 2 ^ W * 2 ^ (8 * ((W + 7) / 8) - W) - 2 ^ W * 1 := Nat.mul_sub _ _ _
  have e5 : (2 : Nat) ^ W * 1 ≤ 2 ^ W * 2 ^ (8 * ((W + 7) / 8) - W) :=
    Nat.mul_le_mul_left _ e3
  have hM2 : 256 ^ ((W + 7) / 8) - a
      = 2 ^ W * (2 ^ (8 * ((W + 7) / 8) - W) - 1) + (2 ^ W - a) := by omega
  have hMmod : (256 ^ ((W + 7) / 8) - a) % 2 ^ W = 2 ^ W - a := by
    conv_lhs => rw [hM2]
    rw [Nat.mul_add_mod]
    exact Nat.mod_eq_of_lt (by omega)
  have hMlt : 256 ^ ((W + 7) / 8) - a < 256 ^ ((W + 7) / 8) := by
    have h1 := pow2W_le_pow256 W
    omega
  unfold bufferToInt
  rw [leBytesToNat_natToLEBytes, Nat.mod_eq_of_lt hMlt, hMmod,
    if_pos ⟨rfl, by omega⟩]
  have hle : a ≤ 2 ^ W := by omega
  have hcast : ((2 ^ W - a : Nat) : Int) = ((2 ^ W : Nat) : Int) - (a : Int) := by
    omega
  rw [hcast]
  have hpow : ((2 ^ W : Nat) : Int) = 2 ^ W := by push_cast; ring
  rw [hpow]
  ring

/-- Full codec round trip over canonical two's-complement buffers: encoding a
value and re-scanning the produced text restores the value.  For signed
negative values this requires `W % 8 ≠ 1` (see the C1 counterexample: for
`W % 8 = 1` the emitted byte pairs exceed what the negative scan accepts). -/
theorem codec_roundtrip (W : Nat) (v : Int) (s : Bool) (hW : 1 ≤ W)
    (hsW : s = true → 2 ≤ W)
    (hrange : if s = true then v.natAbs < 2 ^ (W - 1) ∧ (v < 0 → W % 8 ≠ 1)
      else 0 ≤ v ∧ v < 2 ^ W) :
    ∃ cs bs, sendBitsChars (intToBuffer v W) W s = .ok cs ∧
      scanHexBits cs W = .ok bs ∧ bufferToInt bs W s = v := by
  have hpow : (((2 : Nat) ^ W : Nat) : Int) = 2 ^ W := by push_cast; ring
  have hA1 : 1 ≤ (2 : Nat) ^ (W - 1) := Nat.one_le_two_pow
  cases s with
  | false =>
    rw [if_neg (by simp)] at hrange
    obtain ⟨hv0, hvW⟩ := hrange
    have hu : v.toNat < 2 ^ W := by omega
    have hbuf : intToBuffer v W = natToLEBytes v.toNat ((W + 7) / 8) := by
      unfold intToBuffer
      rw [Int.emod_eq_of_lt hv0 (by omega)]
    rw [hbuf]
    exact ⟨_, _, sendBitsChars_unsigned _ W hW, scanHexBits_canonical _ W hW hu,
      by rw [bufferToInt_canonical _ W false hW hu (by simp)]; omega⟩
  | true =>
    rw [if_pos rfl] at hrange
    obtain ⟨habs, hmod⟩ := hrange
    have hW2 : 2 ≤ W := hsW rfl
    have hdouble : 2 * 2 ^ (W - 1) = 2 ^ W := by
      rw [← pow_succ']
      congr 1
      omega
    rcases lt_or_le v 0 with hneg | hpos
    · have hm8 := hmod hneg
      have ha1 : 1 ≤ v.natAbs := by omega
      have hbuf : intToBuffer v W = natToLEBytes (2 ^ W - v.natAbs) ((W + 7) / 8) := by
        unfold intToBuffer
        have hmodv : v % ((2 : Int) ^ W) = v + 2 ^ W := by
          rw [show v % ((2 : Int) ^ W) = (v + 2 ^ W * 1) % 2 ^ W from
            (Int.add_mul_emod_self_left v (2 ^ W) 1).symm, mul_one]
          apply Int.emod_eq_of_lt <;> omega
        rw [hmodv]
        congr 1
        omega
      rw [hbuf]
      exact ⟨_, _, sendBitsChars_signed_neg v.natAbs W hW2 ha1 habs,
        scanHexBits_neg_canonical v.natAbs W hW2 hm8 ha1 habs,
        by rw [bufferToInt_canonical_neg v.natAbs W hW2 ha1 habs]; omega⟩
    · have hu : v.toNat < 2 ^ (W - 1) := by omega
      have hbuf : intToBuffer v W = natToLEBytes v.toNat ((W + 7) / 8) := by
        unfold intToBuffer
        rw [Int.emod_eq_of_lt hpos (by omega)]
      rw [hbuf]
      exact ⟨_, _, sendBitsChars_signed_nonneg _ W hW2 hu,
        scanHexBits_canonical _ W hW (by omega),
        by rw [bufferToInt_canonical _ W true hW (by omega) (fun _ => hu)]; omega⟩

theorem natToLEBytes_zero (k : Nat) : natToLEBytes 0 k = List.replicate k 0 := by
  induction k with
  | zero => rfl
  | succ k ih => simp [natToLEBytes, ih, List.replicate_succ]

theorem emitBytesHex_replicate_zero (k : Nat) :
    emitBytesHex (List.replicate k 0) = List.replicate (2 * k) '0' := by
  induction k with
  | zero => rfl
  | succ k ih =>
    rw [List.replicate_succ, emitBytesHex_cons, ih,
      show hexPair 0 = ['0', '0'] from rfl,
      show 2 * (k + 1) = 2 * k + 2 by ring, List.replicate_add]
    rfl

/-- C1 (amended): the codec round-trips for every in-range value — unsigned
`W ≥ 1` with `0 ≤ v < 2 ^ W`, signed `W ≥ 2` with `natAbs v < 2 ^ (W - 1)` —
except signed negative values at widths `W ≡ 1 (mod 8)`, which the decoder
rejects (see the counterexample). -/
theorem c1_roundtrip_amended (W : Nat) (v : Int) (s : Bool) (hW : 1 ≤ W)
    (hsW : s = true → 2 ≤ W)
    (hrange : if s = true then v.natAbs < 2 ^ (W - 1) ∧ (v < 0 → W % 8 ≠ 1)
      else 0 ≤ v ∧ v < 2 ^ W) :
    ∃ cs bs, sendBitsChars (intToBuffer v W) W s = .ok cs ∧
      scanHexBits cs W = .ok bs ∧ bufferToInt bs W s = v :=
  codec_roundtrip W v s hW hsW hrange

/-- Witness for C1 (amended) at `W = 8`, `v = -3`, signed. -/
theorem c1_roundtrip_amended_witness :
    ∃ cs bs, sendBitsChars (intToBuffer (-3) 8) 8 true = .ok cs ∧
      scanHexBits cs 8 = .ok bs ∧ bufferToInt bs 8 true = -3 :=
  c1_roundtrip_amended 8 (-3) true (by decide) (fun _ => by decide) (by decide)

/-- C1 counterexample: at signed width 9 (`W ≡ 1 (mod 8)`) with `v = -1` the
encoder emits `-0001` (all `ceil(9/8) = 2` byte pairs), but the decoder
accepts at most `ceil(8/8) = 1` byte for a negative 9-bit value and rejects
the text, so `decode(encode(-1, 9), 9)` fails instead of returning `-1`. -/
theorem c1_counterexample :
    sendBitsChars (intToBuffer (-1) 9) 9 true = .ok (("-0001").toList) ∧
      scanHexBits (("-0001").toList) 9
        = .error ("Scanned value exceeded the byte count.") := by
  exact ⟨rfl, rfl⟩

/-- C2: the claim says any value text with more hex characters than fit in
`ceil(magnitude_width / 8)` bytes is rejected, but the scan loop's leftover
check uses `>` instead of `≥`, so exactly one extra character is silently
ignored: `ABC` at width 8 (capacity 2 hex characters) is accepted as `0xBC`,
and even a non-hex extra character (`ZBC`) is accepted, because the extra
character is never examined. -/
theorem c2_overflow_offbyone :
    scanHexBits (("ABC").toList) 8 = .ok [0xBC] ∧
      scanHexBits (("ZBC").toList) 8 = .ok [0xBC] ∧
      scanHexBits (("ABBC").toList) 8
        = .error ("Scanned value exceeded the byte count.") := by
  exact ⟨rfl, rfl, rfl⟩

/-- C3: the sentinel comparison at line 732 passes the sentinel port's *bit*
width to `memcmp` as its byte length, which differs from the
`ceil(W / 8)`-byte comparison the claim describes for every width `W ≥ 2`
(for `W = 8` it compares 8 bytes while only 1 byte is allocated). -/
theorem c3_sentinel_compare_length (w : Nat) (hw : 2 ≤ w) :
    sentinelCompareByteCount w ≠ (w + 7) / 8 := by
  unfold sentinelCompareByteCount
  omega

/-- Witness for C3 at the failing width 8. -/
theorem c3_sentinel_compare_length_witness :
    sentinelCompareByteCount 8 ≠ (8 + 7) / 8 :=
  c3_sentinel_compare_length 8 (by decide)

/-- C4 counterexample: the emission loop prints every byte with `%02X`, so
zero at width 8 is the two characters `00`, not the single character `0`. -/
theorem c4_counterexample :
    sendBitsChars (intToBuffer 0 8) 8 false = .ok (['0', '0']) ∧
      (['0', '0'] : List Char) ≠ ['0'] := by
  exact ⟨rfl, by decide⟩

/-- C4 (amended): no leading-zero suppression exists: the encoder prints each
of the `ceil(W/8)` buffer bytes as exactly two hex digits, so `encode(0, W)`
is the string of `2 * ceil(W/8)` zero characters — and it never carries a
sign (no `-0`). -/
theorem c4_zero_encoding (W : Nat) (s : Bool) (hW : 1 ≤ W)
    (hs : s = true → 2 ≤ W) :
    sendBitsChars (intToBuffer 0 W) W s
      = .ok (List.replicate (2 * ((W + 7) / 8)) '0') := by
  have hbuf : intToBuffer 0 W = natToLEBytes 0 ((W + 7) / 8) := by
    unfold intToBuffer
    norm_num
  rw [hbuf]
  cases s with
  | false =>
    rw [sendBitsChars_unsigned _ W hW, natToLEBytes_zero, emitBytesHex_replicate_zero]
  | true =>
    rw [sendBitsChars_signed_nonneg 0 W (hs rfl) (pow_pos (by norm_num) _),
      natToLEBytes_zero, emitBytesHex_replicate_zero]

/-- Witness for C4 (amended) at signed width 8. -/
theorem c4_zero_encoding_witness :
    sendBitsChars (intToBuffer 0 8) 8 true = .ok (List.replicate (2 * ((8 + 7) / 8)) '0') :=
  c4_zero_encoding 8 true (by decide) (fun _ => by decide)

/-- C9: the `l` payload is printed with `%s` from a `char *`, so a NUL byte in
the log truncates the payload: after the engine writes bytes `104, 0, 105`,
the LOG response advances the cursor over all three bytes but its payload is
just `104` — the concatenated payloads miss bytes the engine wrote. -/
theorem c9_log_nul_truncation :
    logRun ⟨[], 0⟩ [.append [104, 0, 105], .tail]
        = .ok (⟨[104, 0, 105], 3⟩, [[104]]) ∧
      ([[104]] : List (List Nat)).flatten ≠ [104, 0, 105] := by
  exact ⟨rfl, by decide⟩

theorem sendUintAsBits_ok (value : Nat) :
    sendUintAsBits value
      = .ok ⟨'b', hex8Chars 64 ++ ' ' :: emitBytesHex (natToLEBytes value 8)⟩ := by
  unfold sendUintAsBits sendBitsMsg
  rw [sendBitsChars_unsigned _ 64 (by norm_num)]

theorem tickLoopAux_none (env : Env) (tid : Int) (inP outP : List Nat) (ts : Int)
    (maxC : Int) :
    ∀ (k : Nat) (c : Int), 0 ≤ c → c ≤ maxC → (maxC - c).toNat = k →
      tickLoopAux env tid inP outP ts maxC none k c
        = ((List.replicate k
              [Event.setPort tid inP, .runSim ts, .setPort tid outP, .runSim ts]).flatten,
          maxC) := by
  intro k
  induction k with
  | zero =>
    intro c hc hm hk
    have hce : c = maxC := by omega
    subst hce
    simp [tickLoopAux]
  | succ k ih =>
    intro c hc hm hk
    rw [tickLoopAux, if_pos (by omega)]
    simp only []
    rw [ih (c + 1) (by omega) (by omega) (by omega)]
    simp [List.replicate_succ]

theorem tickLoop_none (env : Env) (tid : Int) (inP outP : List Nat) (ts : Int)
    (maxC : Int) (c : Int) (hc : 0 ≤ c) (hm : c ≤ maxC) :
    tickLoop env tid inP outP ts maxC none c
      = ((List.replicate (maxC - c).toNat
            [Event.setPort tid inP, .runSim ts, .setPort tid outP, .runSim ts]).flatten,
        maxC) :=
  tickLoopAux_none env tid inP outP ts maxC (maxC - c).toNat c hc hm rfl

theorem filter_runSim_flatten (tid : Int) (inP outP : List Nat) (ts : Int) (k : Nat) :
    ((List.replicate k
        [Event.setPort tid inP, .runSim ts, .setPort tid outP, .runSim ts]).flatten).filter
        isRunSim
      = List.replicate (2 * k) (.runSim ts) := by
  induction k with
  | zero => rfl
  | succ k ih =>
    rw [List.replicate_succ, List.flatten_cons, List.filter_append, ih,
      show 2 * (k + 1) = 2 + 2 * k by ring, List.replicate_add]
    rfl

/-- C5: a TICK run without a sentinel and with max cycle count `N ≥ 1` calls
the engine's advance function exactly `2 * N` times, each with the
timesteps-per-phase argument, completes `N` cycles, and the response is the
64-bit unsigned bits message whose value region decodes back to `N`. -/
theorem c5_tick_no_sentinel (env : Env) (tid : Int) (inP outP : List Nat)
    (ts N : Int) (h1 : 1 ≤ N) (h2 : N < 2 ^ 31) :
    ((tickLoop env tid inP outP ts N none 0).1.filter isRunSim
        = List.replicate (2 * N.toNat) (.runSim ts)) ∧
      (tickLoop env tid inP outP ts N none 0).2 = N ∧
      sendUintAsBits (tickLoop env tid inP outP ts N none 0).2.toNat
        = .ok ⟨'b', hex8Chars 64 ++ ' ' :: emitBytesHex (natToLEBytes N.toNat 8)⟩ ∧
      scanHexBits (emitBytesHex (natToLEBytes N.toNat 8)) 64
          = .ok (natToLEBytes N.toNat 8) ∧
      bufferToInt (natToLEBytes N.toNat 8) 64 false = N := by
  have hloop := tickLoop_none env tid inP outP ts N 0 (by omega) (by omega)
  rw [Int.sub_zero] at hloop
  rw [hloop]
  have hN64 : N.toNat < 2 ^ 64 := by omega
  refine ⟨filter_runSim_flatten tid inP outP ts N.toNat, rfl, sendUintAsBits_ok _,
    scanHexBits_canonical N.toNat 64 (by norm_num) hN64, ?_⟩
  rw [bufferToInt_canonical N.toNat 64 false (by norm_num) hN64 (by simp)]
  omega

/-- Witness for C5 at 3 cycles of 5 timesteps per phase. -/
theorem c5_tick_no_sentinel_witness :
    ((tickLoop env0 0 [1] [0] 5 3 none 0).1.filter isRunSim
        = List.replicate (2 * (3 : Int).toNat) (.runSim 5)) ∧
      (tickLoop env0 0 [1] [0] 5 3 none 0).2 = 3 ∧
      sendUintAsBits (tickLoop env0 0 [1] [0] 5 3 none 0).2.toNat
        = .ok ⟨'b', hex8Chars 64 ++ ' ' :: emitBytesHex (natToLEBytes (3 : Int).toNat 8)⟩ ∧
      scanHexBits (emitBytesHex (natToLEBytes (3 : Int).toNat 8)) 64
          = .ok (natToLEBytes (3 : Int).toNat 8) ∧
      bufferToInt (natToLEBytes (3 : Int).toNat 8) 64 false = 3 :=
  c5_tick_no_sentinel env0 0 [1] [0] 5 3 (by decide) (by decide)

/-- C6 (amended): the only count the dispatcher validates is the TICK max
cycle count — a non-positive value is a fatal protocol error raised before
any engine call, while a positive one drives the tick loop normally. -/
theorem c6_count_checks :
    processCommand envT false (("T 0 1,0-1*-2").toList)
        = .error ("Max cycle count for TICK command should be greater than 0.")
    ∧ processCommand envT false (("T 0 1,0-1*0").toList)
        = .error ("Max cycle count for TICK command should be greater than 0.")
    ∧ processCommand envT false (("T 0 1,0-1*2").toList)
        = .ok ⟨false, [.setPort 0 [1], .runSim 1, .setPort 0 [0], .runSim 1,
            .setPort 0 [1], .runSim 1, .setPort 0 [0], .runSim 1],
            [⟨'b', ("00000040 0000000000000002").toList⟩], false⟩ :=
  ⟨rfl, rfl, rfl⟩

/-- C6 counterexample: negative RUN and TICK timestep counts are accepted
and reach the engine as negative `advance` arguments, with a normal `k ack`
or cycle-count response. -/
theorem c6_counterexample :
    processCommand env0 false (("R -1").toList)
        = .ok ⟨false, [.runSim (-1)], [ackMsg], false⟩
    ∧ processCommand envT false (("T 0 1,0--1*2").toList)
        = .ok ⟨false, [.setPort 0 [1], .runSim (-1), .setPort 0 [0], .runSim (-1),
            .setPort 0 [1], .runSim (-1), .setPort 0 [0], .runSim (-1)],
            [⟨'b', ("00000040 0000000000000002").toList⟩], false⟩ :=
  ⟨rfl, rfl⟩

theorem recordStep_lt (L c : Int) (s : List Char) (h : c < L) :
    recordStep L c s = (c + 1, [ScriptLine.cmd c s]) := by
  simp only [recordStep]
  rw [if_pos (Or.inr (le_of_lt h))]
  rw [if_neg (by omega : ¬((c + 1, [ScriptLine.cmd c s]).1 = L + 1))]
  rfl

theorem recordStep_eq_limit (L : Int) (s : List Char) :
    recordStep L L s
      = (L + 1, [ScriptLine.cmd L s, ScriptLine.note L, ScriptLine.syntheticDone (L + 1)]) := by
  simp only [recordStep]
  rw [if_pos (Or.inr (le_refl L))]
  rw [if_pos (rfl : (L + 1, [ScriptLine.cmd L s]).1 = L + 1)]
  rfl

theorem recordStep_past (L c : Int) (s : List Char) (hL : 1 ≤ L) (h : c = L + 1) :
    recordStep L c s = (c, [ScriptLine.note L, ScriptLine.syntheticDone c]) := by
  simp only [recordStep]
  rw [if_neg (by omega : ¬(L = -1 ∨ c ≤ L))]
  rw [if_pos (by omega : ((c : Int), ([] : List ScriptLine)).1 = L + 1)]
  rfl

theorem recordRunAux_counts (L : Int) (hL : 1 ≤ L) :
    ∀ (cmds : List (List Char)) (c : Int), 1 ≤ c → c ≤ L + 1 →
      countCmds (recordRunAux L c cmds) = min cmds.length (L + 1 - c).toNat
      ∧ countDones (recordRunAux L c cmds)
          = (if c ≤ L then cmds.length + 1 - (L + 1 - c).toNat else cmds.length)
      ∧ notesPrecedeDones (recordRunAux L c cmds) = true := by
  intro cmds
  induction cmds with
  | nil =>
    intro c h1 h2
    refine ⟨by simp [recordRunAux, countCmds], ?_, rfl⟩
    simp only [recordRunAux, countDones, List.countP_nil, List.length_nil]
    split
    · omega
    · rfl
  | cons s rest ih =>
    intro c h1 h2
    rcases lt_trichotomy c L with h | h | h
    · have hstep := recordStep_lt L c s h
      obtain ⟨ih1, ih2, ih3⟩ := ih (c + 1) (by omega) (by omega)
      simp only [recordRunAux, hstep]
      refine ⟨?_, ?_, ?_⟩
      · simp [countCmds, List.countP_append, List.countP_cons, isCmdLine] at ih1 ⊢
        omega
      · rw [if_pos (by omega : c + 1 ≤ L)] at ih2
        rw [if_pos (le_of_lt h)]
        simp [countDones, List.countP_append, List.countP_cons, isSyntheticDone] at ih2 ⊢
        omega
      · simpa [notesPrecedeDones] using ih3
    · subst h
      have hstep := recordStep_eq_limit c s
      obtain ⟨ih1, ih2, ih3⟩ := ih (c + 1) (by omega) (by omega)
      simp only [recordRunAux, hstep]
      refine ⟨?_, ?_, ?_⟩
      · simp [countCmds, List.countP_append, List.countP_cons, isCmdLine,
          isSyntheticDone] at ih1 ⊢
        first
        | omega
        | exact ih1
      · rw [if_neg (by omega : ¬(c + 1 ≤ c))] at ih2
        rw [if_pos (le_refl c)]
        simp [countDones, List.countP_append, List.countP_cons, isCmdLine,
          isSyntheticDone] at ih2 ⊢
        omega
      · simpa [notesPrecedeDones] using ih3
    · have hstep := recordStep_past L c s hL (by omega)
      obtain ⟨ih1, ih2, ih3⟩ := ih c (by omega) (by omega)
      simp only [recordRunAux, hstep]
      refine ⟨?_, ?_, ?_⟩
      · simp [countCmds, List.countP_append, List.countP_cons, isCmdLine,
          isSyntheticDone] at ih1 ⊢
        omega
      · rw [if_neg (by omega : ¬(c ≤ L))] at ih2
        rw [if_neg (by omega : ¬(c ≤ L))]
        simp [countDones, List.countP_append, List.countP_cons, isCmdLine,
          isSyntheticDone] at ih2 ⊢
        omega
      · simpa [notesPrecedeDones] using ih3

/-- C7 (amended): with limit `L ≥ 1` the script holds at most `L` recorded
commands (exactly `min n L` of `n` incoming ones); the note/synthetic-`D`
pair appears `n + 1 - L` times — note first, then the `D` — once when the
`L`-th command is recorded and once more for every later command. -/
theorem c7_recorder_limit (L : Int) (hL : 1 ≤ L) (cmds : List (List Char)) :
    countCmds (recordRun L cmds) = min cmds.length L.toNat
    ∧ countDones (recordRun L cmds) = cmds.length + 1 - L.toNat
    ∧ notesPrecedeDones (recordRun L cmds) = true := by
  obtain ⟨h1, h2, h3⟩ := recordRunAux_counts L hL cmds 1 (le_refl 1) (by omega)
  refine ⟨?_, ?_, h3⟩
  · rw [recordRun, h1]
    congr 1
    omega
  · rw [recordRun, h2]
    split
    · congr 1
      omega
    · omega

theorem c7_recorder_limit_witness :
    countCmds (recordRun 2 [['A'], ['B'], ['C']]) = min 3 (Int.toNat 2)
    ∧ countDones (recordRun 2 [['A'], ['B'], ['C']]) = 3 + 1 - Int.toNat 2
    ∧ notesPrecedeDones (recordRun 2 [['A'], ['B'], ['C']]) = true := by
  have h := c7_recorder_limit 2 (by decide) [['A'], ['B'], ['C']]
  simpa using h

/-- C7 counterexample: with limit 1 and two commands the script ends in two
note/synthetic-`D` pairs, each note written before its `D`, so the file has
neither a single synthetic `D` nor a note after it. -/
theorem c7_counterexample :
    recordRun 1 [['A'], ['B']]
      = [.cmd 1 ['A'], .note 1, .syntheticDone 2, .note 1, .syntheticDone 2]
    ∧ countDones (recordRun 1 [['A'], ['B']]) ≠ 1 :=
  ⟨rfl, by decide⟩

/-- C8: every command line the dispatcher accepts yields exactly one framed
response message, except `D` (DONE) which yields none — `done` is reported
exactly for the `D` opcode, and the message list is empty precisely then. -/
theorem c8_one_response (env : Env) (ti : Bool) (content : List Char)
    (r : CmdResult) (h : processCommand env ti content = .ok r) :
    r.msgs.length = (if r.done then 0 else 1)
    ∧ (r.done = true ↔ charAt (lineBuf content) 0 = 'D') := by
  simp only [processCommand, tickFinish] at h
  repeat' split at h
  all_goals first
    | (injection h with h2; subst h2; simp_all)
    | simp at h

theorem c8_one_response_witness :
    (CmdResult.mk true [] [] false).msgs.length
        = (if (CmdResult.mk true [] [] false).done then 0 else 1)
    ∧ ((CmdResult.mk true [] [] false).done = true ↔ charAt (lineBuf ['D']) 0 = 'D') :=
  c8_one_response env0 false ['D'] (CmdResult.mk true [] [] false) rfl

/-- C10: a TRACE command whose one-character argument is neither `0` nor `1`
falls through the switch without a default, performs no trace operation, and
is still acknowledged with `k ack`. -/
theorem c10_trace_unknown_arg (env : Env) (ti : Bool) (c : Char)
    (h0 : c ≠ '0') (h1 : c ≠ '1') :
    processCommand env ti ['W', ' ', c] = .ok ⟨false, [], [ackMsg], ti⟩ := by
  have hb : lineBuf ['W', ' ', c] = ['W', ' ', c, '\n', '\x00'] := rfl
  simp only [processCommand, hb]
  repeat' split
  all_goals simp_all [charAt]

theorem c10_trace_unknown_arg_witness :
    processCommand env0 false ['W', ' ', 'x'] = .ok ⟨false, [], [ackMsg], false⟩ :=
  c10_trace_unknown_arg env0 false 'x' (by decide) (by decide)
